import Mathlib

/-!
# Wanderung: the simulation core of `js/main.js`

A shallow embedding of the runner / ferry / river state machine of the game
loop.  The module-level variables of `main.js` become the fields of `State`,
every function that mutates them becomes a function on `State`, and a
`TypeError` raised by reading a property of `undefined` (an array access out
of range) becomes `none`.

JavaScript numbers are modelled as exact rationals: rounding of IEEE doubles
is not part of this development.  Rendering, audio and DOM calls do not
touch the simulation variables and are left out.
-/

namespace Wanderung

/-! ## Data model -/

/-- The three runner modes of `const RunnerState`. -/
inductive RunnerState where
  | Running
  | Swimming
  | OnFerry
deriving DecidableEq

/-- An entry of the `rivers` array: `{ x, width }`. -/
structure River where
  x : ℚ
  width : ℚ
deriving DecidableEq

/-- An entry of the `ferries` array: `{ pos, dir, speed }`. -/
structure Ferry where
  pos : ℚ
  dir : ℚ
  speed : ℚ
deriving DecidableEq

/-- The module-level simulation variables of `main.js`. -/
structure State where
  isBusMode : Bool
  isPaused : Bool
  cameraX : ℚ
  runnerWorldX : ℚ
  runnerState : RunnerState
  activeRiverIndex : Int
  rivers : List River
  ferries : List Ferry
deriving DecidableEq

/-- `let runnerSpeed = 180` (never reassigned). -/
def runnerSpeed : ℚ := 180

/-- `let swimSpeed = 140` (never reassigned). -/
def swimSpeed : ℚ := 140

/-- `const ferryDockThreshold = 72`. -/
def ferryDockThreshold : ℚ := 72

/-- `const embarkWindow = 600`. -/
def embarkWindow : ℚ := 600

/-- JavaScript array indexing `xs[i]` with an integer index: `undefined`
(here `none`) when `i` is negative or not below the length. -/
def index {α : Type} (xs : List α) (i : Int) : Option α :=
  if i < 0 then none else xs[i.toNat]?

/-- The initial value of `rivers`. -/
def defaultRivers : List River :=
  [⟨1400, 460⟩, ⟨3000, 560⟩, ⟨4700, 640⟩, ⟨6500, 720⟩]

/-- The callback of `rivers.map((r, idx) => ...)` applied from index `idx` on:
one ferry per river, `pos = 0`, `dir = 1`, `speed = 120 + idx * 10`. -/
def ferriesFrom : Nat → List River → List Ferry
  | _, [] => []
  | idx, _ :: rs => ⟨0, 1, 120 + (idx : ℚ) * 10⟩ :: ferriesFrom (idx + 1) rs

/-- The initial value of `ferries`. -/
def defaultFerries : List Ferry := ferriesFrom 0 defaultRivers

/-- The state right after the module has been loaded. -/
def initialState : State where
  isBusMode := false
  isPaused := false
  cameraX := 0
  runnerWorldX := 0
  runnerState := RunnerState.Running
  activeRiverIndex := -1
  rivers := defaultRivers
  ferries := defaultFerries

/-! ## World generator -/

/-- The function `generateNewRivers`: pushes one river and one ferry.  With an
empty `rivers` array `lastRiver` is `undefined` and `lastRiver.x` throws. -/
def generateNewRivers (s : State) : Option State :=
  match s.rivers.getLast? with
  | none => none
  | some lastRiver =>
    let baseDistance : ℚ := 800
    let newX : ℚ := lastRiver.x + lastRiver.width + baseDistance
    let newWidth : ℚ := 500 + ((s.rivers.length % 3 : Nat) : ℚ) * 80
    let rivers : List River := s.rivers ++ [⟨newX, newWidth⟩]
    let ferryStartPos : ℚ := 50
    some { s with
      rivers := rivers
      ferries := s.ferries ++ [⟨ferryStartPos, 1, 120 + ((rivers.length - 1 : Nat) : ℚ) * 10⟩] }

/-! ## Commands -/

/-- The function `resetGame` (sound and button calls left out). -/
def resetGame (s : State) : State :=
  { s with
    runnerWorldX := 0
    cameraX := 0
    runnerState := RunnerState.Running
    activeRiverIndex := -1
    isBusMode := false
    isPaused := false
    ferries := s.ferries.map fun f => { f with pos := 0, dir := 1 } }

/-- The function `togglePause`: resuming with exactly four rivers resets the
game. -/
def togglePause (s : State) : State :=
  let s1 : State := { s with isPaused := !s.isPaused }
  if s1.isPaused then s1
  else if s1.rivers.length = 4 then resetGame s1
  else s1

/-- The function `toggleBusMode` (only the flag; the rest is sound and button
styling). -/
def toggleBusMode (s : State) : State :=
  { s with isBusMode := !s.isBusMode }

/-- The loop shared by `getRiverIndexAt` and `getUpcomingRiverIndex`:
the index of the first river from position `i` on that passes the test, or
`-1`. -/
def firstIndexFrom (p : River → Bool) : Nat → List River → Int
  | _, [] => -1
  | i, r :: rs => if p r then (i : Int) else firstIndexFrom p (i + 1) rs

/-- The function `getRiverIndexAt`. -/
def getRiverIndexAt (rivers : List River) (worldX : ℚ) : Int :=
  firstIndexFrom (fun r => decide (worldX ≥ r.x ∧ worldX < r.x + r.width)) 0 rivers

/-- The function `getUpcomingRiverIndex`. -/
def getUpcomingRiverIndex (rivers : List River) (worldX windowPx : ℚ) : Int :=
  firstIndexFrom (fun r => decide (worldX < r.x ∧ r.x - worldX ≤ windowPx)) 0 rivers

/-- The function `tryEmbarkFerry`.  Reading `rivers[idx].x` or `f.pos` of a
missing element throws; nothing has been assigned at that point. -/
def tryEmbarkFerry (s : State) : Option State :=
  if s.runnerState ≠ RunnerState.Running then some s
  else
    let idx := getUpcomingRiverIndex s.rivers s.runnerWorldX embarkWindow
    if idx = -1 then some s
    else
      match index s.ferries idx, index s.rivers idx with
      | some f, some r =>
        let alreadyInWater : Bool :=
          decide (s.runnerWorldX ≥ r.x ∧ s.runnerWorldX < r.x + 12)
        if f.pos ≤ ferryDockThreshold ∨ alreadyInWater = true then
          some { s with runnerState := RunnerState.OnFerry, activeRiverIndex := idx }
        else some s
      | _, _ => none

/-! ## The simulation step -/

/-- The body of the ferry loop of `tick` for one ferry and its river. -/
def moveFerry (f : Ferry) (r : River) (dt : ℚ) : Ferry :=
  let f1 : Ferry := { f with pos := f.pos + f.dir * f.speed * dt }
  let f2 : Ferry := if f1.pos ≥ r.width then { f1 with pos := r.width, dir := -1 } else f1
  if f2.pos ≤ 0 then { f2 with pos := 0, dir := 1 } else f2

/-- The ferry loop of `tick`: `for (i < ferries.length)` with `r = rivers[i]`.
A ferry without a river makes `r.width` throw. -/
def moveFerries : List Ferry → List River → ℚ → Option (List Ferry)
  | [], _, _ => some []
  | _ :: _, [], _ => none
  | f :: fs, r :: rs, dt => (moveFerries fs rs dt).map fun fs1 => moveFerry f r dt :: fs1

/-- The runner update of `tick`, by runner state. -/
def moveRunner (s : State) (dt : ℚ) : Option State :=
  match s.runnerState with
  | RunnerState.OnFerry =>
    match index s.rivers s.activeRiverIndex, index s.ferries s.activeRiverIndex with
    | some r, some f =>
      let s1 : State := { s with runnerWorldX := r.x + f.pos }
      if f.pos ≥ r.width - 1 then
        some { s1 with runnerState := RunnerState.Running, activeRiverIndex := -1 }
      else some s1
    | _, _ => none
  | RunnerState.Swimming =>
    let s1 : State := { s with runnerWorldX := s.runnerWorldX + swimSpeed * dt }
    match index s1.rivers s1.activeRiverIndex with
    | some r =>
      if s1.runnerWorldX ≥ r.x + r.width then
        some { s1 with runnerState := RunnerState.Running, activeRiverIndex := -1 }
      else some s1
    | none => none
  | RunnerState.Running =>
    let s1 : State := { s with runnerWorldX := s.runnerWorldX + runnerSpeed * dt }
    let ri := getRiverIndexAt s1.rivers s1.runnerWorldX
    if ri ≠ -1 then
      some { s1 with runnerState := RunnerState.Swimming, activeRiverIndex := ri }
    else some s1

/-- The end of the update of `tick`: with exactly four rivers the game pauses
itself beyond the fourth river; with any other count the world is extended. -/
def pauseOrExtend (s : State) : Option State :=
  if s.rivers.length = 4 then
    match index s.rivers 3 with
    | some lastRiver =>
      if s.runnerWorldX > lastRiver.x + lastRiver.width + 200 then
        some { s with isPaused := true }
      else some s
    | none => none
  else
    match s.rivers.getLast? with
    | some lastRiver =>
      if s.runnerWorldX > lastRiver.x + lastRiver.width + 500 then generateNewRivers s
      else some s
    | none => none

/-- The simulation part of `tick` for a time step `dt` (which `tick` computes
as `Math.min(0.05, (ts - lastTime) / 1000)`): ferries, runner, pause or world
extension, camera.  Everything is skipped while `isPaused` is set. -/
def tick (s : State) (dt : ℚ) : Option State :=
  if s.isPaused then some s
  else
    (moveFerries s.ferries s.rivers dt).bind fun fs =>
    (moveRunner { s with ferries := fs } dt).bind fun s2 =>
    (pauseOrExtend s2).map fun s3 =>
      if s3.isPaused then s3 else { s3 with cameraX := s3.runnerWorldX }

/-! ## Reachable states -/

/-- The events that change the simulation variables. -/
inductive Cmd where
  | step (dt : ℚ)
  | embark
  | pause
  | reset
  | bus

/-- Run one event. -/
def exec (s : State) : Cmd → Option State
  | Cmd.step dt => tick s dt
  | Cmd.embark => tryEmbarkFerry s
  | Cmd.pause => some (togglePause s)
  | Cmd.reset => some (resetGame s)
  | Cmd.bus => some (toggleBusMode s)

/-- States reached from `initialState` by events that satisfy `ok`. -/
inductive Reachable (ok : Cmd → Prop) : State → Prop where
  | init : Reachable ok initialState
  | next {s s1 : State} (c : Cmd) :
      Reachable ok s → ok c → exec s c = some s1 → Reachable ok s1

/-- Steps with `0 ≤ dt ≤ 0.05` and every button event. -/
def clampedCmd : Cmd → Prop
  | Cmd.step dt => 0 ≤ dt ∧ dt ≤ 1 / 20
  | _ => True

/-- Steps with `0 ≤ dt` and every button event. -/
def forwardCmd : Cmd → Prop
  | Cmd.step dt => 0 ≤ dt
  | _ => True

/-! ## Embarking, as the specification words it -/

/-- The test of `getUpcomingRiverIndex` at the embark window: the river starts
strictly ahead of the runner, at most `embarkWindow` away. -/
def AheadInWindow (r : River) (worldX : ℚ) : Prop :=
  worldX < r.x ∧ r.x - worldX ≤ embarkWindow

/-- The embark window of the specification:
`0 <= river.startX - worldX <= embarkWindow`, with `embarkWindow = 600`. -/
def InEmbarkWindow (r : River) (worldX : ℚ) : Prop :=
  0 ≤ r.x - worldX ∧ r.x - worldX ≤ 600

/-- River `i` is the lowest-index river whose start is in the embark window of
the specification. -/
def FirstInWindow (s : State) (i : Nat) : Prop :=
  ∃ r, s.rivers[i]? = some r ∧ InEmbarkWindow r s.runnerWorldX ∧
    ∀ j r1, j < i → s.rivers[j]? = some r1 → ¬ InEmbarkWindow r1 s.runnerWorldX

/-- The ferry of river `i` is docked: `ferries[i].pos <= 72`. -/
def Docked (s : State) (i : Nat) : Prop :=
  ∃ f, s.ferries[i]? = some f ∧ f.pos ≤ 72

/-- The embark preconditions of the specification for river `i`. -/
def EmbarkCondition (s : State) (i : Nat) : Prop :=
  s.runnerState = RunnerState.Running ∧ FirstInWindow s i ∧ Docked s i

/-- The call `tryEmbarkFerry()` changes the runner state, to `OnFerry` bound
to river `i`. -/
def Embarks (s : State) (i : Nat) : Prop :=
  ∃ s1, tryEmbarkFerry s = some s1 ∧ s1.runnerState ≠ s.runnerState ∧
    s1.runnerState = RunnerState.OnFerry ∧ s1.activeRiverIndex = (i : Int)

/-- The runner is within the first 12 units of some river, the zone that
`alreadyInWater` of `tryEmbarkFerry` tests. -/
def InGraceZone (s : State) : Prop :=
  ∃ r ∈ s.rivers, r.x ≤ s.runnerWorldX ∧ s.runnerWorldX < r.x + 12

/-- The default world with the runner put at `worldX`, running. -/
def runnerAt (worldX : ℚ) : State :=
  { initialState with runnerWorldX := worldX }

/-- The default world with the runner at `worldX`, running, and the first
ferry at `pos`. -/
def runnerAtFerryAt (worldX pos : ℚ) : State :=
  { initialState with
    runnerWorldX := worldX
    ferries := [⟨pos, 1, 120⟩, ⟨0, 1, 130⟩, ⟨0, 1, 140⟩, ⟨0, 1, 150⟩] }

/-! ## Ferry and river invariants -/

/-- Every ferry has a river of its index, lies within that river and has a
direction of `-1` or `+1`. -/
def FerriesInRange (rivers : List River) (ferries : List Ferry) : Prop :=
  ∀ (i : Nat) (f : Ferry), ferries[i]? = some f →
    ∃ r : River, rivers[i]? = some r ∧ 0 ≤ f.pos ∧ f.pos ≤ r.width ∧ (f.dir = -1 ∨ f.dir = 1)

/-- How a ferry `f1` after the ferry update relates to the ferry `f` before it
on a river `r`: the position is within the river, and the direction is `-1`
at the far bound, `+1` at the near bound and unchanged in between. -/
def FerryMoved (r : River) (f f1 : Ferry) : Prop :=
  0 ≤ f1.pos ∧ f1.pos ≤ r.width ∧ (f1.pos = r.width → f1.dir = -1) ∧
    (f1.pos = 0 → f1.dir = 1) ∧ (0 < f1.pos → f1.pos < r.width → f1.dir = f.dir) ∧
    f1.speed = f.speed

/-! ## Runs and well-formed states -/

/-- Run a list of events in order. -/
def run (s : State) : List Cmd → Option State
  | [] => some s
  | c :: cs => (exec s c).bind fun s1 => run s1 cs

/-- The active river exists and the runner is in its water:
`rivers[i].x <= runnerWorldX < rivers[i].x + rivers[i].width` for
`i = activeRiverIndex`. -/
def InWater (s : State) : Prop :=
  ∃ (i : Nat) (r : River), s.activeRiverIndex = (i : Int) ∧ s.rivers[i]? = some r ∧
    r.x ≤ s.runnerWorldX ∧ s.runnerWorldX < r.x + r.width

/-- The active river exists: `0 <= activeRiverIndex < rivers.length`. -/
def BoundToRiver (s : State) : Prop :=
  ∃ (i : Nat) (r : River), s.activeRiverIndex = (i : Int) ∧ s.rivers[i]? = some r

/-- The invariant of the simulation: one ferry per river, at least one river,
no active river while running, and an existing active river otherwise, whose
water holds a swimming runner. -/
structure WellFormed (s : State) : Prop where
  aligned : s.ferries.length = s.rivers.length
  nonempty : s.rivers ≠ []
  running : s.runnerState = RunnerState.Running → s.activeRiverIndex = -1
  swimming : s.runnerState = RunnerState.Swimming → InWater s
  onFerry : s.runnerState = RunnerState.OnFerry → BoundToRiver s

/-- The default world after 156 steps of `dt = 0.05`: the runner has run
`156 * 9 = 1404` units and is in the water of river 0. -/
def afterSteps156 : State :=
  { initialState with
    cameraX := 1404
    runnerWorldX := 1404
    runnerState := RunnerState.Swimming
    activeRiverIndex := 0
    ferries := [⟨12, 1, 120⟩, ⟨223 / 2, -1, 130⟩, ⟨192, -1, 140⟩, ⟨270, -1, 150⟩] }

/-- The events that lead to `beforeDisembark`: 154 steps of `0.05`, a call of
`tryEmbarkFerry` (ferry 0 is back at the near shore, the runner 14 units
before river 0) and 76 more steps of `0.05`. -/
def rideFerry : List Cmd :=
  List.replicate 154 (Cmd.step (1 / 20)) ++ Cmd.embark :: List.replicate 76 (Cmd.step (1 / 20))

/-- The default world after the events `rideFerry`: the runner rides ferry 0,
which is at `pos = 456` of the 460 units of river 0. -/
def beforeDisembark : State :=
  { initialState with
    cameraX := 1856
    runnerWorldX := 1856
    runnerState := RunnerState.OnFerry
    activeRiverIndex := 0
    ferries := [⟨456, 1, 120⟩, ⟨364, 1, 130⟩, ⟨322, 1, 140⟩, ⟨285, 1, 150⟩] }

/-- The state one step of `dt = 0.025` after `beforeDisembark`: ferry 0 has
reached `pos = 459` and the runner has left it at `worldX = 1859`. -/
def afterDisembark : State :=
  { initialState with
    cameraX := 1859
    runnerWorldX := 1859
    runnerState := RunnerState.Running
    activeRiverIndex := -1
    ferries := [⟨459, 1, 120⟩, ⟨1469 / 4, 1, 130⟩, ⟨651 / 2, 1, 140⟩, ⟨1155 / 4, 1, 150⟩] }

/-- The default world with the runner running at `worldX = 7719`, nine units
before `6500 + 720 + 500`. -/
def nearExtension : State :=
  { initialState with cameraX := 7719, runnerWorldX := 7719 }

/-- The state one step of `dt = 0.05` after `nearExtension`: the runner is at
`7728`, the game has paused itself and the four default rivers are all there
is. -/
def pausedBeyondFourth : State :=
  { initialState with
    isPaused := true
    cameraX := 7719
    runnerWorldX := 7728
    ferries := [⟨6, 1, 120⟩, ⟨13 / 2, 1, 130⟩, ⟨7, 1, 140⟩, ⟨15 / 2, 1, 150⟩] }

/-- The river ordering of the specification: each river starts at least 800
units after the end of the one before it,
`rivers[i+1].x >= rivers[i].x + rivers[i].width + 800`. -/
def GapOrdered (rivers : List River) : Prop :=
  ∀ (i : Nat) (a b : River), rivers[i]? = some a → rivers[i + 1]? = some b →
    b.x ≥ a.x + a.width + 800

/-- Rivers are sorted by `x` ascending and do not overlap: a river of lower
index ends before a river of higher index starts. -/
def SortedApart (rivers : List River) : Prop :=
  ∀ (i j : Nat) (a b : River), i < j → rivers[i]? = some a → rivers[j]? = some b →
    a.x < b.x ∧ a.x + a.width < b.x

/-- Every river has a strictly positive width. -/
def PositiveWidths (rivers : List River) : Prop :=
  ∀ r ∈ rivers, 0 < r.width

/-! ## Play without reset, and riding a ferry -/

/-- Steps with `0 ≤ dt ≤ 0.05` and calls of `tryEmbarkFerry`, nothing else. -/
def playCmd : Cmd → Prop
  | Cmd.step dt => 0 ≤ dt ∧ dt ≤ 1 / 20
  | Cmd.embark => True
  | _ => False

/-- A runner on a ferry is not ahead of it:
`runnerWorldX <= rivers[i].x + ferries[i].pos` for `i = activeRiverIndex`. -/
def RiderNotAhead (s : State) : Prop :=
  s.runnerState = RunnerState.OnFerry →
    ∀ (i : Nat) (r : River) (f : Ferry), s.activeRiverIndex = (i : Int) →
      s.rivers[i]? = some r → s.ferries[i]? = some f → s.runnerWorldX ≤ r.x + f.pos

/-- The invariant behind the movement of the runner: the world is the default
one, every ferry is within its river with a speed that is not negative, and a
runner on a ferry is not ahead of it. -/
structure RideInv (s : State) : Prop where
  rivers : s.rivers = defaultRivers
  inRange : FerriesInRange s.rivers s.ferries
  speeds : ∀ f ∈ s.ferries, 0 ≤ f.speed
  notAhead : RiderNotAhead s

/-- The events that lead to `ridingBack`: 142 steps of `0.05`, a call of
`tryEmbarkFerry` (ferry 0 is on its way back, at `pos = 70 <= 72`, the runner
122 units before river 0) and one more step of `0.05`. -/
def boardReturning : List Cmd :=
  List.replicate 142 (Cmd.step (1 / 20)) ++ [Cmd.embark, Cmd.step (1 / 20)]

/-- The default world after the events `boardReturning`: the runner rides
ferry 0, which is at `pos = 64` and heads back to the near shore. -/
def ridingBack : State :=
  { initialState with
    cameraX := 1464
    runnerWorldX := 1464
    runnerState := RunnerState.OnFerry
    activeRiverIndex := 0
    ferries := [⟨64, -1, 120⟩, ⟨196, -1, 130⟩, ⟨283, -1, 140⟩, ⟨735 / 2, -1, 150⟩] }

/-- The state one step of `dt = 0.05` after `ridingBack`: the ferry has
carried the runner back to `worldX = 1458`. -/
def ridingBackNext : State :=
  { initialState with
    cameraX := 1458
    runnerWorldX := 1458
    runnerState := RunnerState.OnFerry
    activeRiverIndex := 0
    ferries := [⟨58, -1, 120⟩, ⟨379 / 2, -1, 130⟩, ⟨276, -1, 140⟩, ⟨360, -1, 150⟩] }

/-! ## States of play -/

/-- A running runner is outside the first 12 units of every river. -/
def DryRunner (s : State) : Prop :=
  s.runnerState = RunnerState.Running → ¬ InGraceZone s

/-- The runner has not passed the point where the game pauses itself:
`runnerWorldX <= 7429`, and `runnerWorldX <= 6500 + 720 + 200` while the game
is not paused. -/
def WithinFourRivers (s : State) : Prop :=
  s.runnerWorldX ≤ 7429 ∧ (s.isPaused = false → s.runnerWorldX ≤ 7420)

/-- The default world after 100 steps of `dt = 0.05`: the runner runs at
`worldX = 900 = rivers[0].x - 500`, ferry 0 is far from the near shore. -/
def afterSteps100 : State :=
  { initialState with
    cameraX := 900
    runnerWorldX := 900
    ferries := [⟨322, -1, 120⟩, ⟨951 / 2, -1, 130⟩, ⟨584, -1, 140⟩, ⟨690, -1, 150⟩] }

/-- The default world after 154 steps of `dt = 0.05`: the runner runs at
`worldX = 1386`, 14 units before river 0, and ferry 0 is at the near shore. -/
def afterSteps154 : State :=
  { initialState with
    cameraX := 1386
    runnerWorldX := 1386
    ferries := [⟨0, 1, 120⟩, ⟨249 / 2, -1, 130⟩, ⟨206, -1, 140⟩, ⟨285, -1, 150⟩] }

/-- The default world after 225 steps of `dt = 0.05`: the runner has crossed river 0 and runs at `worldX = 1893`. -/
def afterSteps225 : State :=
  { initialState with
    cameraX := 1893
    runnerWorldX := 1893
    ferries := [⟨426, 1, 120⟩, ⟨663 / 2, 1, 130⟩, ⟨287, 1, 140⟩, ⟨495 / 2, 1, 150⟩] }

/-- The default world after 450 steps of `dt = 0.05`: the runner has crossed river 1 and runs at `worldX = 3758`. -/
def afterSteps450 : State :=
  { initialState with
    cameraX := 3758
    runnerWorldX := 3758
    ferries := [⟨70, -1, 120⟩, ⟨925 / 2, -1, 130⟩, ⟨574, 1, 140⟩, ⟨495, 1, 150⟩] }

/-- The default world after 675 steps of `dt = 0.05`: the runner has crossed river 2 and runs at `worldX = 5601`. -/
def afterSteps675 : State :=
  { initialState with
    cameraX := 5601
    runnerWorldX := 5601
    ferries := [⟨354, 1, 120⟩, ⟨131, -1, 130⟩, ⟨423, -1, 140⟩, ⟨1395 / 2, -1, 150⟩] }

/-- The default world after 900 steps of `dt = 0.05`: the runner has crossed river 3 and runs at `worldX = 7420 = 6500 + 720 + 200`. -/
def afterSteps900 : State :=
  { initialState with
    cameraX := 7420
    runnerWorldX := 7420
    ferries := [⟨142, -1, 120⟩, ⟨195, 1, 130⟩, ⟨136, -1, 140⟩, ⟨450, -1, 150⟩] }

/-- The default world after 901 steps of `dt = 0.05`: the runner has run and
swum past the four rivers to `worldX = 7429`, and the game has paused
itself. -/
def afterSteps901 : State :=
  { initialState with
    isPaused := true
    cameraX := 7420
    runnerWorldX := 7429
    ferries := [⟨136, -1, 120⟩, ⟨403 / 2, 1, 130⟩, ⟨129, -1, 140⟩, ⟨885 / 2, -1, 150⟩] }

/-! ## Array indexing and the search loop -/

theorem index_natCast {α : Type} (xs : List α) (k : Nat) : index xs (k : Int) = xs[k]? := by
  simp [index]

theorem index_eq_some {α : Type} {xs : List α} {i : Int} {a : α} (h : index xs i = some a) :
    ∃ k : Nat, i = (k : Int) ∧ xs[k]? = some a := by
  unfold index at h
  split at h
  · cases h
  · rename_i hi
    exact ⟨i.toNat, (Int.toNat_of_nonneg (not_lt.mp hi)).symm, h⟩

theorem index_neg_one {α : Type} (xs : List α) : index xs (-1) = none := by
  simp [index]

/-- What the search loop returns: `-1` when no river passes the test, and
otherwise the position of the first one that does. -/
theorem firstIndexFrom_spec (p : River → Bool) (rs : List River) (i : Nat) :
    (firstIndexFrom p i rs = -1 ∧ ∀ r ∈ rs, p r = false) ∨
    (∃ k r, firstIndexFrom p i rs = ((i + k : Nat) : Int) ∧ rs[k]? = some r ∧ p r = true ∧
      ∀ j r1, j < k → rs[j]? = some r1 → p r1 = false) := by
  induction rs generalizing i with
  | nil => left; simp [firstIndexFrom]
  | cons r rs ih =>
    by_cases hp : p r = true
    · right
      refine ⟨0, r, ?_, ?_, hp, ?_⟩
      · simp [firstIndexFrom, hp]
      · simp
      · intro j r1 hj; omega
    · have hp' : p r = false := by simpa using hp
      rcases ih (i + 1) with ⟨h1, h2⟩ | ⟨k, r0, h1, h2, h3, h4⟩
      · left
        refine ⟨?_, ?_⟩
        · simp [firstIndexFrom, hp', h1]
        · intro r1 hr1
          rcases List.mem_cons.mp hr1 with rfl | hr1
          · exact hp'
          · exact h2 r1 hr1
      · right
        refine ⟨k + 1, r0, ?_, ?_, h3, ?_⟩
        · simp only [firstIndexFrom, hp', Bool.false_eq_true, if_false, h1]
          congr 1; omega
        · simpa using h2
        · intro j r1 hj hr1
          cases j with
          | zero => simp at hr1; subst hr1; exact hp'
          | succ j =>
            simp at hr1
            exact h4 j r1 (by omega) hr1

theorem firstIndexFrom_eq_neg_one {p : River → Bool} {rs : List River} :
    firstIndexFrom p 0 rs = -1 ↔ ∀ r ∈ rs, p r = false := by
  rcases firstIndexFrom_spec p rs 0 with ⟨h1, h2⟩ | ⟨k, r, h1, h2, h3, -⟩
  · exact ⟨fun _ => h2, fun _ => h1⟩
  · constructor
    · intro h; rw [h1] at h; omega
    · intro h
      have := h r (List.getElem?_mem h2)
      rw [h3] at this; cases this

theorem firstIndexFrom_eq_natCast {p : River → Bool} {rs : List River} {k : Nat} :
    firstIndexFrom p 0 rs = (k : Int) ↔
      ∃ r, rs[k]? = some r ∧ p r = true ∧ ∀ j r1, j < k → rs[j]? = some r1 → p r1 = false := by
  rcases firstIndexFrom_spec p rs 0 with ⟨h1, h2⟩ | ⟨k0, r0, h1, h2, h3, h4⟩
  · constructor
    · intro h; rw [h1] at h; omega
    · rintro ⟨r, hr, hp, -⟩
      have := h2 r (List.getElem?_mem hr)
      rw [hp] at this; cases this
  · constructor
    · intro h
      rw [h1] at h
      have hk : k0 = k := by omega
      subst hk
      exact ⟨r0, h2, h3, h4⟩
    · rintro ⟨r, hr, hp, hfirst⟩
      rw [h1]
      rcases Nat.lt_trichotomy k0 k with hlt | heq | hgt
      · have := hfirst k0 r0 hlt h2
        rw [h3] at this; cases this
      · subst heq; simp
      · have := h4 k r hgt hr
        rw [hp] at this; cases this

/-- The search loop returns `-1` or a valid index. -/
theorem firstIndexFrom_range (p : River → Bool) (rs : List River) :
    firstIndexFrom p 0 rs = -1 ∨
      ∃ (k : Nat) (r : River), firstIndexFrom p 0 rs = (k : Int) ∧ rs[k]? = some r ∧ p r = true := by
  rcases firstIndexFrom_spec p rs 0 with ⟨h1, -⟩ | ⟨k, r, h1, h2, h3, -⟩
  · exact Or.inl h1
  · exact Or.inr ⟨k, r, by simpa using h1, h2, h3⟩

/-! ## Embarking -/

theorem tryEmbarkFerry_not_running {s : State} (h : s.runnerState ≠ RunnerState.Running) :
    tryEmbarkFerry s = some s := by
  simp [tryEmbarkFerry, h]

theorem tryEmbarkFerry_none_ahead {s : State}
    (h : ∀ r ∈ s.rivers, ¬ AheadInWindow r s.runnerWorldX) : tryEmbarkFerry s = some s := by
  have hidx : getUpcomingRiverIndex s.rivers s.runnerWorldX embarkWindow = -1 := by
    unfold getUpcomingRiverIndex
    rw [firstIndexFrom_eq_neg_one]
    intro r hr
    have := h r hr
    simpa [AheadInWindow] using this
  unfold tryEmbarkFerry
  split
  · rfl
  · simp [hidx]

/-- With the runner running and river `k` the first one ahead in the window,
the call boards ferry `k` exactly when that ferry exists and is docked; the
`alreadyInWater` test is never true there. -/
theorem tryEmbarkFerry_first_ahead {s : State} {k : Nat} {r : River}
    (hrun : s.runnerState = RunnerState.Running)
    (hr : s.rivers[k]? = some r) (hahead : AheadInWindow r s.runnerWorldX)
    (hfirst : ∀ j r1, j < k → s.rivers[j]? = some r1 → ¬ AheadInWindow r1 s.runnerWorldX) :
    tryEmbarkFerry s =
      match s.ferries[k]? with
      | none => none
      | some f =>
        if f.pos ≤ 72 then
          some { s with runnerState := RunnerState.OnFerry, activeRiverIndex := (k : Int) }
        else some s := by
  have hidx : getUpcomingRiverIndex s.rivers s.runnerWorldX embarkWindow = (k : Int) := by
    unfold getUpcomingRiverIndex
    rw [firstIndexFrom_eq_natCast]
    refine ⟨r, hr, ?_, ?_⟩
    · simpa [AheadInWindow] using hahead
    · intro j r1 hj hr1
      have := hfirst j r1 hj hr1
      simpa [AheadInWindow] using this
  have hk : ((k : Int) = -1) = False := by
    apply eq_false; omega
  have hwater : ¬ (r.x ≤ s.runnerWorldX) := not_le.mpr hahead.1
  unfold tryEmbarkFerry
  simp only [hrun, ne_eq, not_true_eq_false, if_false, hidx, hk, index_natCast, hr]
  cases hf : s.ferries[k]? with
  | none => rfl
  | some f => simp [ferryDockThreshold, hwater]

theorem inEmbarkWindow_iff_ahead {s : State} (hgrace : ¬ InGraceZone s) {r : River}
    (hr : r ∈ s.rivers) : InEmbarkWindow r s.runnerWorldX ↔ AheadInWindow r s.runnerWorldX := by
  unfold InEmbarkWindow AheadInWindow embarkWindow
  constructor
  · rintro ⟨h1, h2⟩
    refine ⟨?_, h2⟩
    rcases lt_or_eq_of_le (sub_nonneg.mp h1) with h | h
    · exact h
    · exact absurd ⟨r, hr, le_of_eq h.symm, by rw [h]; linarith⟩ hgrace
  · rintro ⟨h1, h2⟩
    exact ⟨by linarith, h2⟩

/-- Every state: the call returns the state as it is, or boards the ferry of
the first river strictly ahead within the window, which is then docked, or
throws because that ferry is missing. -/
theorem tryEmbarkFerry_cases (s : State) :
    tryEmbarkFerry s = some s ∨
    (∃ (k : Nat) (r : River), s.runnerState = RunnerState.Running ∧ s.rivers[k]? = some r ∧
      AheadInWindow r s.runnerWorldX ∧
      (∀ j r1, j < k → s.rivers[j]? = some r1 → ¬ AheadInWindow r1 s.runnerWorldX) ∧
      ((s.ferries[k]? = none ∧ tryEmbarkFerry s = none) ∨
       (∃ f, s.ferries[k]? = some f ∧ f.pos ≤ 72 ∧ tryEmbarkFerry s =
          some { s with runnerState := RunnerState.OnFerry, activeRiverIndex := (k : Int) }))) := by
  by_cases hrun : s.runnerState = RunnerState.Running
  · rcases firstIndexFrom_spec
        (fun r => decide (s.runnerWorldX < r.x ∧ r.x - s.runnerWorldX ≤ embarkWindow)) s.rivers 0
      with ⟨-, h2⟩ | ⟨k, r, -, h2, h3, h4⟩
    · left
      apply tryEmbarkFerry_none_ahead
      intro r hr
      simpa [AheadInWindow] using h2 r hr
    · have hahead : AheadInWindow r s.runnerWorldX := by simpa [AheadInWindow] using h3
      have hfirst : ∀ j r1, j < k → s.rivers[j]? = some r1 →
          ¬ AheadInWindow r1 s.runnerWorldX := by
        intro j r1 hj hr1
        simpa [AheadInWindow] using h4 j r1 hj hr1
      have hcall := tryEmbarkFerry_first_ahead hrun h2 hahead hfirst
      cases hf : s.ferries[k]? with
      | none =>
        right
        refine ⟨k, r, hrun, h2, hahead, hfirst, Or.inl ⟨hf, ?_⟩⟩
        rw [hcall, hf]
      | some f =>
        rw [hf] at hcall
        by_cases hdock : f.pos ≤ 72
        · right
          refine ⟨k, r, hrun, h2, hahead, hfirst, Or.inr ⟨f, hf, hdock, ?_⟩⟩
          rw [hcall]; simp [hdock]
        · left
          rw [hcall]; simp [hdock]
  · exact Or.inl (tryEmbarkFerry_not_running hrun)

/-- Outside play: with the variables set so that the runner runs exactly at
the start of river 0 (`worldX = 1400`, a state that `Reachable.dryRunner`
excludes), the window `0 <= 1400 - 1400 <= 600` and the dock test
`pos = 0 <= 72` hold for river 0, yet `tryEmbarkFerry` leaves the state as it
is, because `getUpcomingRiverIndex` tests `worldX < r.x`. -/
theorem embark_gating_fails_at_river_start :
    EmbarkCondition (runnerAt 1400) 0 ∧ ¬ Embarks (runnerAt 1400) 0 ∧
      tryEmbarkFerry (runnerAt 1400) = some (runnerAt 1400) := by
  have hcall : tryEmbarkFerry (runnerAt 1400) = some (runnerAt 1400) := by
    apply tryEmbarkFerry_none_ahead
    intro r hr
    simp only [runnerAt, initialState, defaultRivers, List.mem_cons, List.mem_singleton,
      List.not_mem_nil, or_false] at hr
    rcases hr with rfl | rfl | rfl | rfl <;>
      norm_num [AheadInWindow, runnerAt, initialState, embarkWindow]
  refine ⟨⟨rfl, ⟨⟨1400, 460⟩, rfl, ?_, ?_⟩, ⟨⟨0, 1, 120⟩, ?_, ?_⟩⟩, ?_, hcall⟩
  · norm_num [InEmbarkWindow, runnerAt, initialState]
  · intro j r1 hj; omega
  · norm_num [runnerAt, initialState, defaultFerries, defaultRivers, ferriesFrom]
  · norm_num
  · rintro ⟨s1, h1, h2, -⟩
    rw [hcall] at h1
    cases h1
    exact h2 rfl

/-- Embark gating, state by state: for every state with index-aligned ferries
in which the runner is not within the first 12 units of any river,
`tryEmbarkFerry` changes
the runner state, to `OnFerry` with `activeRiverIndex = i`, if and only if
`runnerState` is `Running`, river `i` is the lowest-index river with
`0 <= rivers[i].x - runnerWorldX <= 600`, and `ferries[i].pos <= 72`; in
every other case the call returns the state unchanged. -/
theorem embark_gating (s : State) (hlen : s.ferries.length = s.rivers.length)
    (hgrace : ¬ InGraceZone s) :
    (∀ i, Embarks s i ↔ EmbarkCondition s i) ∧
      ((∀ i, ¬ EmbarkCondition s i) → tryEmbarkFerry s = some s) := by
  have hwin : ∀ {j : Nat} {r : River}, s.rivers[j]? = some r →
      (InEmbarkWindow r s.runnerWorldX ↔ AheadInWindow r s.runnerWorldX) :=
    fun h => inEmbarkWindow_iff_ahead hgrace (List.getElem?_mem h)
  have hfer : ∀ {k : Nat} {r : River}, s.rivers[k]? = some r → s.ferries[k]? ≠ none := by
    intro k r hr hnone
    have h1 : k < s.rivers.length := by
      rcases List.getElem?_eq_some.mp hr with ⟨h, -⟩; exact h
    have h2 : s.ferries.length ≤ k := List.getElem?_eq_none_iff.mp hnone
    omega
  rcases tryEmbarkFerry_cases s with hsame | ⟨k, r, hrun, hr, hahead, hfirst, hres⟩
  · have hno : ∀ i, ¬ Embarks s i := by
      rintro i ⟨s1, h1, h2, -⟩
      rw [hsame] at h1
      cases h1
      exact h2 rfl
    have hnc : ∀ i, ¬ EmbarkCondition s i := by
      rintro i ⟨hrun, ⟨r, hr, hw, hfirst⟩, ⟨f, hf, hdock⟩⟩
      have hcall := tryEmbarkFerry_first_ahead hrun hr ((hwin hr).mp hw)
        (fun j r1 hj hr1 hw1 => hfirst j r1 hj hr1 ((hwin hr1).mpr hw1))
      rw [hf, hsame] at hcall
      simp only [hdock, if_true, Option.some.injEq] at hcall
      have := congrArg State.runnerState hcall
      rw [hrun] at this
      cases this
    exact ⟨fun i => ⟨fun h => absurd h (hno i), fun h => absurd h (hnc i)⟩, fun _ => hsame⟩
  · rcases hres with ⟨hnone, -⟩ | ⟨f, hf, hdock, hcall⟩
    · exact absurd hnone (hfer hr)
    · have hk : EmbarkCondition s k :=
        ⟨hrun, ⟨r, hr, (hwin hr).mpr hahead,
          fun j r1 hj hr1 hw1 => hfirst j r1 hj hr1 ((hwin hr1).mp hw1)⟩, ⟨f, hf, hdock⟩⟩
      refine ⟨fun i => ⟨?_, ?_⟩, fun h => absurd hk (h k)⟩
      · rintro ⟨s1, h1, -, -, h4⟩
        rw [hcall] at h1
        cases h1
        have : k = i := by
          have h5 : (k : Int) = (i : Int) := h4
          exact_mod_cast h5
        subst this
        exact hk
      · rintro ⟨-, ⟨r1, hr1, hw1, hfirst1⟩, -⟩
        have hik : i = k := by
          rcases Nat.lt_trichotomy i k with hlt | heq | hgt
          · exact absurd ((hwin hr1).mp hw1) (hfirst i r1 hlt hr1)
          · exact heq
          · exact absurd ((hwin hr).mpr hahead) (hfirst1 k r hgt hr)
        subst hik
        refine ⟨_, hcall, ?_, rfl, rfl⟩
        rw [hrun]
        intro h
        cases h

/-- The scenario of the specification, with the variables set to its values:
in the default world with the runner at `rivers[0].x - 500 = 900`, ferry 0 at
`pos = 50` is boarded, and with ferry 0 at `pos = 400` the call changes
nothing. -/
theorem embark_gating_witness :
    (runnerAtFerryAt 900 50).ferries.length = (runnerAtFerryAt 900 50).rivers.length ∧
    ¬ InGraceZone (runnerAtFerryAt 900 50) ∧
    Embarks (runnerAtFerryAt 900 50) 0 ∧
    tryEmbarkFerry (runnerAtFerryAt 900 400) = some (runnerAtFerryAt 900 400) := by
  have hgrace : ∀ pos, ¬ InGraceZone (runnerAtFerryAt 900 pos) := by
    rintro pos ⟨r, hr, h1, h2⟩
    simp only [runnerAtFerryAt, initialState, defaultRivers, List.mem_cons, List.mem_singleton,
      List.not_mem_nil, or_false] at hr h1 h2
    rcases hr with rfl | rfl | rfl | rfl <;> norm_num at h1 h2
  refine ⟨rfl, hgrace 50, ?_, ?_⟩
  · refine ((embark_gating (runnerAtFerryAt 900 50) rfl (hgrace 50)).1 0).mpr
      ⟨rfl, ⟨⟨1400, 460⟩, rfl, ?_, ?_⟩, ⟨⟨50, 1, 120⟩, rfl, ?_⟩⟩
    · norm_num [InEmbarkWindow, runnerAtFerryAt, initialState]
    · intro j r1 hj; omega
    · norm_num
  · refine (embark_gating (runnerAtFerryAt 900 400) rfl (hgrace 400)).2 ?_
    rintro i ⟨-, ⟨r, hr, hw, hfirst⟩, ⟨f, hf, hdock⟩⟩
    have h0 : InEmbarkWindow ⟨1400, 460⟩ (runnerAtFerryAt 900 400).runnerWorldX := by
      norm_num [InEmbarkWindow, runnerAtFerryAt, initialState]
    have hi : i = 0 := by
      rcases Nat.eq_zero_or_pos i with h | h
      · exact h
      · exact absurd h0 (hfirst 0 ⟨1400, 460⟩ h rfl)
    subst hi
    have hf0 : f = ⟨400, 1, 120⟩ := by
      have : (runnerAtFerryAt 900 400).ferries[0]? = some ⟨400, 1, 120⟩ := rfl
      rw [this] at hf
      exact (Option.some.inj hf).symm
    subst hf0
    norm_num at hdock

/-! ## The parts of the simulation step -/

theorem moveFerry_moved (f : Ferry) (r : River) (dt : ℚ) (hw : 0 < r.width) :
    FerryMoved r f (moveFerry f r dt) := by
  unfold FerryMoved moveFerry
  dsimp only
  by_cases h1 : f.pos + f.dir * f.speed * dt ≥ r.width
  · have h2 : ¬ r.width ≤ 0 := not_le.mpr hw
    rw [if_pos h1, if_neg h2]
    refine ⟨le_of_lt hw, le_refl _, fun _ => rfl, ?_, ?_, rfl⟩
    · intro h; exact absurd h (ne_of_gt hw)
    · intro _ h; exact absurd h (lt_irrefl _)
  · rw [if_neg h1]
    by_cases h2 : f.pos + f.dir * f.speed * dt ≤ 0
    · rw [if_pos h2]
      refine ⟨le_refl _, le_of_lt hw, ?_, fun _ => rfl, ?_, rfl⟩
      · intro h; exact absurd h.symm (ne_of_gt hw)
      · intro h; exact absurd h (lt_irrefl _)
    · rw [if_neg h2]
      have h3 : f.pos + f.dir * f.speed * dt < r.width := not_le.mp h1
      have h4 : 0 < f.pos + f.dir * f.speed * dt := not_le.mp h2
      refine ⟨le_of_lt h4, le_of_lt h3, ?_, ?_, fun _ _ => rfl, rfl⟩
      · intro h; exact absurd h (ne_of_lt h3)
      · intro h; exact absurd h (ne_of_gt h4)

/-- The ferry loop returns when every ferry has a river, and then moves each
ferry on the river of its index. -/
theorem moveFerries_some (fs : List Ferry) (rs : List River) (dt : ℚ)
    (h : fs.length ≤ rs.length) :
    ∃ fs1, moveFerries fs rs dt = some fs1 ∧ fs1.length = fs.length ∧
      ∀ (i : Nat) (f : Ferry) (r : River), fs[i]? = some f → rs[i]? = some r →
        fs1[i]? = some (moveFerry f r dt) := by
  induction fs generalizing rs with
  | nil => exact ⟨[], rfl, rfl, fun i f r hf => by simp at hf⟩
  | cons f fs ih =>
    cases rs with
    | nil => simp at h
    | cons r rs =>
      rcases ih rs (by simpa using h) with ⟨fs1, h1, h2, h3⟩
      refine ⟨moveFerry f r dt :: fs1, by simp [moveFerries, h1], by simp [h2], ?_⟩
      intro i f0 r0 hf hr
      cases i with
      | zero =>
        simp only [List.getElem?_cons_zero, Option.some.injEq] at hf hr
        subst hf; subst hr; simp
      | succ i =>
        simp only [List.getElem?_cons_succ] at hf hr ⊢
        exact h3 i f0 r0 hf hr

/-- The ferry loop throws when a ferry has no river. -/
theorem moveFerries_eq_some_length {fs fs1 : List Ferry} {rs : List River} {dt : ℚ}
    (h : moveFerries fs rs dt = some fs1) : fs.length ≤ rs.length := by
  induction fs generalizing rs fs1 with
  | nil => simp
  | cons f fs ih =>
    cases rs with
    | nil => simp [moveFerries] at h
    | cons r rs =>
      simp only [moveFerries, Option.map_eq_some'] at h
      rcases h with ⟨fs2, h2, -⟩
      have := ih h2
      simpa using this

/-- The runner update touches only the position, the mode and the active
river. -/
theorem moveRunner_frame {s s2 : State} {dt : ℚ} (h : moveRunner s dt = some s2) :
    s2.rivers = s.rivers ∧ s2.ferries = s.ferries ∧ s2.isPaused = s.isPaused ∧
      s2.isBusMode = s.isBusMode ∧ s2.cameraX = s.cameraX := by
  unfold moveRunner at h
  split at h
  · split at h
    · split at h <;> (cases h; exact ⟨rfl, rfl, rfl, rfl, rfl⟩)
    · cases h
  · dsimp only at h
    split at h
    · split at h <;> (cases h; exact ⟨rfl, rfl, rfl, rfl, rfl⟩)
    · cases h
  · dsimp only at h
    split at h <;> (cases h; exact ⟨rfl, rfl, rfl, rfl, rfl⟩)

theorem generateNewRivers_eq_some {s s3 : State} (h : generateNewRivers s = some s3) :
    ∃ last, s.rivers.getLast? = some last ∧
      s3 = { s with
        rivers := s.rivers ++ [⟨last.x + last.width + 800,
          500 + ((s.rivers.length % 3 : Nat) : ℚ) * 80⟩]
        ferries := s.ferries ++ [⟨50, 1, 120 + (s.rivers.length : ℚ) * 10⟩] } := by
  unfold generateNewRivers at h
  split at h
  · cases h
  · rename_i last hlast
    refine ⟨last, hlast, ?_⟩
    simp only [Option.some.injEq] at h
    rw [← h]
    simp

/-- The last part of the update leaves the runner alone and changes the
lists only by appending: nothing with four rivers, and at most one river
together with one ferry otherwise. -/
theorem pauseOrExtend_frame {s s3 : State} (h : pauseOrExtend s = some s3) :
    s3.runnerWorldX = s.runnerWorldX ∧ s3.runnerState = s.runnerState ∧
      s3.activeRiverIndex = s.activeRiverIndex ∧ s3.cameraX = s.cameraX ∧
      s3.isBusMode = s.isBusMode ∧
      ((s3.rivers = s.rivers ∧ s3.ferries = s.ferries) ∨
        (s.rivers.length ≠ 4 ∧ s3.isPaused = s.isPaused ∧
          ∃ r f, s3.rivers = s.rivers ++ [r] ∧ s3.ferries = s.ferries ++ [f] ∧
            0 < r.width ∧ f.pos = 50 ∧ f.dir = 1)) := by
  unfold pauseOrExtend at h
  split at h
  · split at h
    · split at h <;> (cases h; exact ⟨rfl, rfl, rfl, rfl, rfl, Or.inl ⟨rfl, rfl⟩⟩)
    · cases h
  · rename_i hlen
    split at h
    · split at h
      · rcases generateNewRivers_eq_some h with ⟨last, -, rfl⟩
        refine ⟨rfl, rfl, rfl, rfl, rfl, Or.inr ⟨hlen, rfl, _, _, rfl, rfl, ?_, rfl, rfl⟩⟩
        positivity
      · cases h; exact ⟨rfl, rfl, rfl, rfl, rfl, Or.inl ⟨rfl, rfl⟩⟩
    · cases h

/-- A step from a state that is not paused is the composition of its parts. -/
theorem tick_eq_some {s s1 : State} {dt : ℚ} (hp : s.isPaused = false)
    (h : tick s dt = some s1) :
    ∃ fs s2 s3, moveFerries s.ferries s.rivers dt = some fs ∧
      moveRunner { s with ferries := fs } dt = some s2 ∧ pauseOrExtend s2 = some s3 ∧
      s1 = (if s3.isPaused then s3 else { s3 with cameraX := s3.runnerWorldX }) := by
  unfold tick at h
  rw [if_neg (by simp [hp])] at h
  simp only [Option.bind_eq_some, Option.map_eq_some'] at h
  rcases h with ⟨fs, h1, s2, h2, s3, h3, h4⟩
  exact ⟨fs, s2, s3, h1, h2, h3, h4.symm⟩

/-- A step while paused returns the state as it is. -/
theorem tick_paused {s : State} (hp : s.isPaused = true) (dt : ℚ) : tick s dt = some s := by
  simp [tick, hp]

/-! ## The ferry update -/

theorem defaultRivers_width_pos : ∀ r ∈ initialState.rivers, 0 < r.width := by
  intro r hr
  simp only [initialState, defaultRivers, List.mem_cons, List.mem_singleton,
    List.not_mem_nil, or_false] at hr
  rcases hr with rfl | rfl | rfl | rfl <;> norm_num

theorem defaultFerries_inRange : FerriesInRange initialState.rivers initialState.ferries := by
  intro i f hf
  simp only [initialState, defaultFerries, defaultRivers, ferriesFrom] at hf ⊢
  match i, hf with
  | 0, hf =>
    simp only [List.getElem?_cons_zero, Option.some.injEq] at hf
    subst hf; exact ⟨_, rfl, by norm_num⟩
  | 1, hf =>
    simp only [List.getElem?_cons_succ, List.getElem?_cons_zero, Option.some.injEq] at hf
    subst hf; exact ⟨_, rfl, by norm_num⟩
  | 2, hf =>
    simp only [List.getElem?_cons_succ, List.getElem?_cons_zero, Option.some.injEq] at hf
    subst hf; exact ⟨_, rfl, by norm_num⟩
  | 3, hf =>
    simp only [List.getElem?_cons_succ, List.getElem?_cons_zero, Option.some.injEq] at hf
    subst hf; exact ⟨_, rfl, by norm_num⟩
  | n + 4, hf => simp at hf

/-- After a step that was not paused, the ferries that existed before it are
the ones the ferry loop produced, on the same rivers. -/
theorem tick_ferries_prefix {s s1 : State} {dt : ℚ} {fs : List Ferry}
    (hp : s.isPaused = false) (hfs : moveFerries s.ferries s.rivers dt = some fs)
    (h : tick s dt = some s1) (i : Nat) (hi : i < fs.length) :
    s1.ferries[i]? = fs[i]? ∧ s1.rivers[i]? = s.rivers[i]? := by
  rcases tick_eq_some hp h with ⟨fs0, s2, s3, h1, h2, h3, rfl⟩
  rw [hfs] at h1
  cases h1
  rcases moveRunner_frame h2 with ⟨hr2, hf2, -⟩
  rcases pauseOrExtend_frame h3 with ⟨-, -, -, -, -, hlists⟩
  have hlen : fs.length ≤ s.rivers.length := by
    rcases moveFerries_some s.ferries s.rivers dt (moveFerries_eq_some_length hfs)
      with ⟨fs1, e1, e2, -⟩
    rw [hfs] at e1
    cases e1
    rw [e2]
    exact moveFerries_eq_some_length hfs
  have key : s3.ferries[i]? = fs[i]? ∧ s3.rivers[i]? = s.rivers[i]? := by
    rcases hlists with ⟨e1, e2⟩ | ⟨-, -, r, f, e1, e2, -⟩
    · rw [e1, e2, hr2, hf2]
      exact ⟨rfl, rfl⟩
    · rw [e1, e2, hr2, hf2]
      dsimp only
      rw [List.getElem?_append_left hi, List.getElem?_append_left (by omega)]
      exact ⟨rfl, rfl⟩
  split
  · exact key
  · exact key

/-- C3: for every simulation step that is not paused (any `dt`, so also every
`dt >= 0`), from a state where every river has `width > 0` and every ferry `i`
has `0 <= pos <= rivers[i].width` and `dir` in `{-1, +1}`, the ferry update
returns, every ferry `i` again has `0 <= pos <= rivers[i].width` and a `dir`
in `{-1, +1}`, and its direction is `-1` if the new `pos = width`, `+1` if
the new `pos = 0`, and unchanged when `0 < pos < width`; the step keeps these
ferries. -/
theorem ferry_invariant (s : State) (dt : ℚ) (hp : s.isPaused = false)
    (hw : ∀ r ∈ s.rivers, 0 < r.width) (hin : FerriesInRange s.rivers s.ferries) :
    ∃ fs, moveFerries s.ferries s.rivers dt = some fs ∧ fs.length = s.ferries.length ∧
      FerriesInRange s.rivers fs ∧
      (∀ (i : Nat) (f f1 : Ferry) (r : River), s.ferries[i]? = some f → fs[i]? = some f1 →
        s.rivers[i]? = some r → FerryMoved r f f1) ∧
      (∀ s1, tick s dt = some s1 → ∀ i, i < fs.length →
        s1.ferries[i]? = fs[i]? ∧ s1.rivers[i]? = s.rivers[i]?) := by
  have hlen : s.ferries.length ≤ s.rivers.length := by
    by_contra hcon
    have hlt : s.rivers.length < s.ferries.length := not_le.mp hcon
    rcases hin s.rivers.length (s.ferries[s.rivers.length]) (List.getElem?_eq_getElem hlt)
      with ⟨r, hr, -⟩
    rcases List.getElem?_eq_some.mp hr with ⟨h, -⟩
    exact lt_irrefl _ h
  rcases moveFerries_some s.ferries s.rivers dt hlen with ⟨fs, h1, h2, h3⟩
  have hmoved : ∀ (i : Nat) (f f1 : Ferry) (r : River), s.ferries[i]? = some f →
      fs[i]? = some f1 → s.rivers[i]? = some r → FerryMoved r f f1 := by
    intro i f f1 r hf hf1 hr
    rw [h3 i f r hf hr] at hf1
    cases hf1
    exact moveFerry_moved f r dt (hw r (List.getElem?_mem hr))
  refine ⟨fs, h1, h2, ?_, hmoved, fun s1 hs1 i hi => tick_ferries_prefix hp h1 hs1 i hi⟩
  intro i f1 hf1
  have hi : i < s.ferries.length := by
    rcases List.getElem?_eq_some.mp hf1 with ⟨h, -⟩
    omega
  rcases hin i (s.ferries[i]) (List.getElem?_eq_getElem hi) with ⟨r, hr, -, -, hdir⟩
  rcases hmoved i _ f1 r (List.getElem?_eq_getElem hi) hf1 hr with ⟨m1, m2, m3, m4, m5, -⟩
  refine ⟨r, hr, m1, m2, ?_⟩
  rcases lt_or_eq_of_le m1 with hpos | hzero
  · rcases lt_or_eq_of_le m2 with hlt | heq
    · rw [m5 hpos hlt]; exact hdir
    · exact Or.inl (m3 heq)
  · exact Or.inr (m4 hzero.symm)

/-- The first step of the default world satisfies the hypotheses of C3. -/
theorem ferry_invariant_witness :
    initialState.isPaused = false ∧ (∀ r ∈ initialState.rivers, 0 < r.width) ∧
    FerriesInRange initialState.rivers initialState.ferries ∧
    ∃ fs, moveFerries initialState.ferries initialState.rivers (1 / 20) = some fs ∧
      fs.length = initialState.ferries.length ∧ FerriesInRange initialState.rivers fs ∧
      (∀ (i : Nat) (f f1 : Ferry) (r : River), initialState.ferries[i]? = some f →
        fs[i]? = some f1 → initialState.rivers[i]? = some r → FerryMoved r f f1) ∧
      (∀ s1, tick initialState (1 / 20) = some s1 → ∀ i, i < fs.length →
        s1.ferries[i]? = fs[i]? ∧ s1.rivers[i]? = initialState.rivers[i]?) :=
  ⟨rfl, defaultRivers_width_pos, defaultFerries_inRange,
    ferry_invariant initialState (1 / 20) rfl defaultRivers_width_pos defaultFerries_inRange⟩

/-! ## The invariant of the simulation -/

theorem initialState_wellFormed : WellFormed initialState where
  aligned := rfl
  nonempty := by simp [initialState, defaultRivers]
  running := fun _ => rfl
  swimming := fun h => by cases h
  onFerry := fun h => by cases h

/-- The runner update returns on a well-formed state and keeps it
well-formed, for a time step that is not negative. -/
theorem moveRunner_wellFormed {s : State} {dt : ℚ} (hdt : 0 ≤ dt) (h : WellFormed s) :
    ∃ s2, moveRunner s dt = some s2 ∧ WellFormed s2 := by
  cases hst : s.runnerState with
  | OnFerry =>
    rcases h.onFerry hst with ⟨i, r, hidx, hr⟩
    have hi : i < s.ferries.length := by
      rcases List.getElem?_eq_some.mp hr with ⟨hlt, -⟩
      rw [h.aligned]; exact hlt
    have hf : s.ferries[i]? = some (s.ferries[i]) := List.getElem?_eq_getElem hi
    unfold moveRunner
    simp only [hst, hidx, index_natCast, hr, hf]
    split
    · exact ⟨_, rfl, ⟨h.aligned, h.nonempty, fun _ => rfl, fun e => (by cases e),
        fun e => (by cases e)⟩⟩
    · exact ⟨_, rfl, ⟨h.aligned, h.nonempty, fun e => (by cases e),
        fun e => (by cases e), fun _ => ⟨i, r, rfl, hr⟩⟩⟩
  | Swimming =>
    rcases h.swimming hst with ⟨i, r, hidx, hr, hlo, hhi⟩
    unfold moveRunner
    simp only [hst, hidx, index_natCast, hr]
    split
    · exact ⟨_, rfl, ⟨h.aligned, h.nonempty, fun _ => rfl, fun e => (by cases e),
        fun e => (by cases e)⟩⟩
    · rename_i hnot
      refine ⟨_, rfl, ⟨h.aligned, h.nonempty, fun e => (by cases e),
        fun _ => ⟨i, r, rfl, hr, ?_, not_le.mp hnot⟩, fun e => (by cases e)⟩⟩
      have : 0 ≤ swimSpeed * dt := mul_nonneg (by norm_num [swimSpeed]) hdt
      show r.x ≤ s.runnerWorldX + swimSpeed * dt
      linarith
  | Running =>
    unfold moveRunner
    simp only [hst]
    rcases firstIndexFrom_range
        (fun r => decide (s.runnerWorldX + runnerSpeed * dt ≥ r.x ∧
          s.runnerWorldX + runnerSpeed * dt < r.x + r.width)) s.rivers
      with hnone | ⟨k, r, hk, hr, hp⟩
    · have hri : getRiverIndexAt s.rivers (s.runnerWorldX + runnerSpeed * dt) = -1 := hnone
      simp only [hri, ne_eq, not_true_eq_false, if_false]
      exact ⟨_, rfl, ⟨h.aligned, h.nonempty, fun _ => h.running hst,
        fun e => (by cases e), fun e => (by cases e)⟩⟩
    · have hri : getRiverIndexAt s.rivers (s.runnerWorldX + runnerSpeed * dt) = (k : Int) := hk
      have hk1 : ((k : Int) = -1) = False := by apply eq_false; omega
      simp only [hri, ne_eq, hk1, not_false_eq_true, if_true]
      have hp1 : r.x ≤ s.runnerWorldX + runnerSpeed * dt ∧
          s.runnerWorldX + runnerSpeed * dt < r.x + r.width := by simpa using hp
      exact ⟨_, rfl, ⟨h.aligned, h.nonempty, fun e => (by cases e),
        fun _ => ⟨k, r, rfl, hr, hp1.1, hp1.2⟩, fun e => (by cases e)⟩⟩

/-- Well-formedness depends only on the runner and on the lists, and survives
appending rivers together with as many ferries. -/
theorem WellFormed.transfer {s s1 : State} (h : WellFormed s) (rs : List River)
    (hx : s1.runnerWorldX = s.runnerWorldX) (hst : s1.runnerState = s.runnerState)
    (hidx : s1.activeRiverIndex = s.activeRiverIndex) (hr : s1.rivers = s.rivers ++ rs)
    (hf : s1.ferries.length = s.ferries.length + rs.length) : WellFormed s1 where
  aligned := by rw [hf, hr, h.aligned, List.length_append]
  nonempty := by
    rw [hr]
    intro hnil
    exact h.nonempty (List.append_eq_nil.mp hnil).1
  running := fun e => by rw [hidx]; exact h.running (hst ▸ e)
  swimming := fun e => by
    rcases h.swimming (hst ▸ e) with ⟨i, r, h1, h2, h3, h4⟩
    refine ⟨i, r, by rw [hidx, h1], ?_, by rw [hx]; exact h3, by rw [hx]; exact h4⟩
    rw [hr, List.getElem?_append_left (List.getElem?_eq_some.mp h2).1]
    exact h2
  onFerry := fun e => by
    rcases h.onFerry (hst ▸ e) with ⟨i, r, h1, h2⟩
    refine ⟨i, r, by rw [hidx, h1], ?_⟩
    rw [hr, List.getElem?_append_left (List.getElem?_eq_some.mp h2).1]
    exact h2

theorem generateNewRivers_isSome {s : State} (hne : s.rivers ≠ []) :
    ∃ s3, generateNewRivers s = some s3 := by
  unfold generateNewRivers
  cases hlast : s.rivers.getLast? with
  | none => exact absurd (List.getLast?_eq_none_iff.mp hlast) hne
  | some last => exact ⟨_, rfl⟩

/-- With at least one river the last part of the update returns. -/
theorem pauseOrExtend_isSome {s : State} (hne : s.rivers ≠ []) :
    ∃ s3, pauseOrExtend s = some s3 := by
  unfold pauseOrExtend
  split
  · rename_i hlen
    have h3 : s.rivers[3]? = some (s.rivers[3]) := List.getElem?_eq_getElem (by omega)
    have hidx : index s.rivers 3 = some (s.rivers[3]) := by
      rw [← h3]; exact index_natCast s.rivers 3
    rw [hidx]
    dsimp only
    split
    · exact ⟨_, rfl⟩
    · exact ⟨_, rfl⟩
  · cases hlast : s.rivers.getLast? with
    | none => exact absurd (List.getLast?_eq_none_iff.mp hlast) hne
    | some last =>
      dsimp only
      split
      · exact generateNewRivers_isSome hne
      · exact ⟨_, rfl⟩

theorem pauseOrExtend_wellFormed {s : State} (h : WellFormed s) :
    ∃ s3, pauseOrExtend s = some s3 ∧ WellFormed s3 := by
  rcases pauseOrExtend_isSome h.nonempty with ⟨s3, h3⟩
  refine ⟨s3, h3, ?_⟩
  rcases pauseOrExtend_frame h3 with ⟨hx, hst, hidx, -, -, hlists⟩
  rcases hlists with ⟨e1, e2⟩ | ⟨-, -, r, f, e1, e2, -⟩
  · exact h.transfer [] hx hst hidx (by rw [e1, List.append_nil]) (by rw [e2]; rfl)
  · exact h.transfer [r] hx hst hidx e1 (by rw [e2, List.length_append]; rfl)

/-- A step with `dt >= 0` returns on a well-formed state (no
lookup hits a missing element) and keeps it well-formed. -/
theorem tick_wellFormed {s : State} {dt : ℚ} (hdt : 0 ≤ dt) (h : WellFormed s) :
    ∃ s1, tick s dt = some s1 ∧ WellFormed s1 := by
  cases hp : s.isPaused with
  | true => exact ⟨s, tick_paused hp dt, h⟩
  | false =>
    rcases moveFerries_some s.ferries s.rivers dt (le_of_eq h.aligned) with ⟨fs, h1, h2, -⟩
    have hwf1 : WellFormed { s with ferries := fs } :=
      h.transfer [] rfl rfl rfl (by simp) (by simpa using h2)
    rcases moveRunner_wellFormed hdt hwf1 with ⟨s2, h3, hwf2⟩
    rcases pauseOrExtend_wellFormed hwf2 with ⟨s3, h4, hwf3⟩
    refine ⟨if s3.isPaused then s3 else { s3 with cameraX := s3.runnerWorldX }, ?_, ?_⟩
    · unfold tick
      rw [if_neg (by simp [hp]), h1, Option.some_bind, h3, Option.some_bind, h4, Option.map_some']
    · split
      · exact hwf3
      · exact hwf3.transfer [] rfl rfl rfl (by simp) (by simp)

theorem tryEmbarkFerry_wellFormed {s : State} (h : WellFormed s) :
    ∃ s1, tryEmbarkFerry s = some s1 ∧ WellFormed s1 := by
  rcases tryEmbarkFerry_cases s with hsame | ⟨k, r, -, hr, -, -, hres⟩
  · exact ⟨s, hsame, h⟩
  · rcases hres with ⟨hnone, -⟩ | ⟨f, -, -, hcall⟩
    · have h1 : k < s.rivers.length := (List.getElem?_eq_some.mp hr).1
      have h2 : s.ferries.length ≤ k := List.getElem?_eq_none_iff.mp hnone
      have h3 := h.aligned
      omega
    · exact ⟨_, hcall, ⟨h.aligned, h.nonempty, fun e => (by cases e), fun e => (by cases e),
        fun _ => ⟨k, r, rfl, hr⟩⟩⟩

theorem resetGame_wellFormed {s : State} (h : WellFormed s) : WellFormed (resetGame s) where
  aligned := by simp [resetGame, h.aligned]
  nonempty := h.nonempty
  running := fun _ => rfl
  swimming := fun e => by cases e
  onFerry := fun e => by cases e

theorem togglePause_wellFormed {s : State} (h : WellFormed s) :
    WellFormed (togglePause s) := by
  have h1 : WellFormed { s with isPaused := !s.isPaused } :=
    h.transfer [] rfl rfl rfl (by simp) (by simp)
  unfold togglePause
  dsimp only
  split
  · exact h1
  · split
    · exact resetGame_wellFormed h1
    · exact h1

theorem toggleBusMode_wellFormed {s : State} (h : WellFormed s) :
    WellFormed (toggleBusMode s) :=
  h.transfer [] rfl rfl rfl (by simp [toggleBusMode]) (by simp [toggleBusMode])

/-- Every event with a time step that is not negative returns on a
well-formed state and keeps it well-formed. -/
theorem exec_wellFormed {s : State} {c : Cmd} (hc : forwardCmd c) (h : WellFormed s) :
    ∃ s1, exec s c = some s1 ∧ WellFormed s1 := by
  cases c with
  | step dt => exact tick_wellFormed hc h
  | embark => exact tryEmbarkFerry_wellFormed h
  | pause => exact ⟨_, rfl, togglePause_wellFormed h⟩
  | reset => exact ⟨_, rfl, resetGame_wellFormed h⟩
  | bus => exact ⟨_, rfl, toggleBusMode_wellFormed h⟩

theorem Reachable.mono {ok ok1 : Cmd → Prop} (himp : ∀ c, ok c → ok1 c) {s : State}
    (h : Reachable ok s) : Reachable ok1 s := by
  induction h with
  | init => exact Reachable.init
  | next c _ hc hex ih => exact Reachable.next c ih (himp c hc) hex

theorem clampedCmd_forward (c : Cmd) (h : clampedCmd c) : forwardCmd c := by
  cases c with
  | step dt => exact h.1
  | embark => trivial
  | pause => trivial
  | reset => trivial
  | bus => trivial

theorem Reachable.wellFormed {s : State} (h : Reachable forwardCmd s) : WellFormed s := by
  induction h with
  | init => exact initialState_wellFormed
  | next c _ hc hex ih =>
    rcases exec_wellFormed hc ih with ⟨s2, h2, hwf⟩
    rw [hex] at h2
    cases h2
    exact hwf

/-- A run of events that satisfy `ok` ends in a reachable state. -/
theorem Reachable.of_run {ok : Cmd → Prop} {s s1 : State} (cmds : List Cmd)
    (hs : Reachable ok s) (hok : ∀ c ∈ cmds, ok c) (hrun : run s cmds = some s1) :
    Reachable ok s1 := by
  induction cmds generalizing s with
  | nil =>
    simp only [run, Option.some.injEq] at hrun
    rw [← hrun]; exact hs
  | cons c cs ih =>
    simp only [run, Option.bind_eq_some] at hrun
    rcases hrun with ⟨s2, h1, h2⟩
    exact ih (Reachable.next c hs (hok c (List.mem_cons_self c cs)) h1)
      (fun c1 hc1 => hok c1 (List.mem_cons_of_mem c hc1)) h2

theorem replicate_step_clamped (n : Nat) :
    ∀ c ∈ List.replicate n (Cmd.step (1 / 20)), clampedCmd c := by
  intro c hc
  rw [List.eq_of_mem_replicate hc]
  exact ⟨by norm_num, le_refl _⟩

/-! ## Legs of play

Runs of the default world are evaluated leg by leg, from one written-out
state to the next, and put together with `run_append`. -/

theorem playCmd_clamped (c : Cmd) (h : playCmd c) : clampedCmd c := by
  cases c with
  | step dt => exact h
  | embark => trivial
  | pause => trivial
  | reset => trivial
  | bus => trivial

theorem replicate_step_play (n : Nat) :
    ∀ c ∈ List.replicate n (Cmd.step (1 / 20)), playCmd c := by
  intro c hc
  rw [List.eq_of_mem_replicate hc]
  exact ⟨by norm_num, le_refl _⟩

theorem rideFerry_clamped : ∀ c ∈ rideFerry, clampedCmd c := by
  intro c hc
  simp only [rideFerry, List.mem_append, List.mem_cons] at hc
  rcases hc with hc | rfl | hc
  · exact replicate_step_clamped 154 c hc
  · trivial
  · exact replicate_step_clamped 76 c hc

theorem rideFerry_play : ∀ c ∈ rideFerry, playCmd c := by
  intro c hc
  simp only [rideFerry, List.mem_append, List.mem_cons] at hc
  rcases hc with hc | rfl | hc
  · exact replicate_step_play 154 c hc
  · trivial
  · exact replicate_step_play 76 c hc

theorem boardReturning_play : ∀ c ∈ boardReturning, playCmd c := by
  intro c hc
  simp only [boardReturning, List.mem_append, List.mem_cons, List.mem_singleton,
    List.not_mem_nil, or_false] at hc
  rcases hc with hc | rfl | rfl
  · exact replicate_step_play 142 c hc
  · trivial
  · exact ⟨by norm_num, le_refl _⟩

/-- A run over two lists of events is the run over the first followed by the
run over the second. -/
theorem run_append (s : State) (a b : List Cmd) :
    run s (a ++ b) = (run s a).bind fun s1 => run s1 b := by
  induction a generalizing s with
  | nil => rfl
  | cons c cs ih =>
    simp only [List.cons_append, run]
    cases exec s c with
    | none => rfl
    | some s1 => exact ih s1

theorem run_append_some {s s1 s2 : State} {a b : List Cmd} (ha : run s a = some s1)
    (hb : run s1 b = some s2) : run s (a ++ b) = some s2 := by
  rw [run_append, ha, Option.some_bind, hb]

theorem leg_0_100 :
    run initialState (List.replicate 100 (Cmd.step (1 / 20))) = some afterSteps100 := by
  decide!

theorem leg_100_154 :
    run afterSteps100 (List.replicate 54 (Cmd.step (1 / 20))) = some afterSteps154 := by
  decide!

theorem leg_154_156 :
    run afterSteps154 (List.replicate 2 (Cmd.step (1 / 20))) = some afterSteps156 := by
  decide!

theorem leg_156_225 :
    run afterSteps156 (List.replicate 69 (Cmd.step (1 / 20))) = some afterSteps225 := by
  decide!

theorem leg_225_450 :
    run afterSteps225 (List.replicate 225 (Cmd.step (1 / 20))) = some afterSteps450 := by
  decide!

theorem leg_450_675 :
    run afterSteps450 (List.replicate 225 (Cmd.step (1 / 20))) = some afterSteps675 := by
  decide!

theorem leg_675_900 :
    run afterSteps675 (List.replicate 225 (Cmd.step (1 / 20))) = some afterSteps900 := by
  decide!

theorem leg_900_901 :
    run afterSteps900 (List.replicate 1 (Cmd.step (1 / 20))) = some afterSteps901 := by
  decide!

/-- From `afterSteps154`: the call of `tryEmbarkFerry` and 76 steps. -/
theorem leg_ride :
    run afterSteps154 (Cmd.embark :: List.replicate 76 (Cmd.step (1 / 20))) =
      some beforeDisembark := by
  decide!

/-- From `afterSteps100`: 42 steps, the call of `tryEmbarkFerry` on the
returning ferry, and one step. -/
theorem leg_board_returning :
    run afterSteps100 (List.replicate 42 (Cmd.step (1 / 20)) ++
      [Cmd.embark, Cmd.step (1 / 20)]) = some ridingBack := by
  decide!

theorem run_100_steps :
    run initialState (List.replicate 100 (Cmd.step (1 / 20))) = some afterSteps100 :=
  leg_0_100

theorem run_154_steps :
    run initialState (List.replicate 154 (Cmd.step (1 / 20))) = some afterSteps154 := by
  have hsplit : List.replicate 154 (Cmd.step (1 / 20)) =
      List.replicate 100 (Cmd.step (1 / 20)) ++ List.replicate 54 (Cmd.step (1 / 20)) := by
    simp only [List.append_replicate_replicate]
  rw [hsplit]
  exact run_append_some leg_0_100 leg_100_154

theorem run_156_steps :
    run initialState (List.replicate 156 (Cmd.step (1 / 20))) = some afterSteps156 := by
  have hsplit : List.replicate 156 (Cmd.step (1 / 20)) =
      List.replicate 154 (Cmd.step (1 / 20)) ++ List.replicate 2 (Cmd.step (1 / 20)) := by
    simp only [List.append_replicate_replicate]
  rw [hsplit]
  exact run_append_some run_154_steps leg_154_156

/-- The 901 steps of `0.05` that end the game. -/
theorem run_901_steps :
    run initialState (List.replicate 901 (Cmd.step (1 / 20))) = some afterSteps901 := by
  have hsplit : List.replicate 901 (Cmd.step (1 / 20)) =
      List.replicate 156 (Cmd.step (1 / 20)) ++ (List.replicate 69 (Cmd.step (1 / 20)) ++
        (List.replicate 225 (Cmd.step (1 / 20)) ++ (List.replicate 225 (Cmd.step (1 / 20)) ++
          (List.replicate 225 (Cmd.step (1 / 20)) ++
            List.replicate 1 (Cmd.step (1 / 20)))))) := by
    simp only [List.append_replicate_replicate]
  rw [hsplit]
  exact run_append_some run_156_steps (run_append_some leg_156_225 (run_append_some leg_225_450
    (run_append_some leg_450_675 (run_append_some leg_675_900 leg_900_901))))

theorem run_rideFerry : run initialState rideFerry = some beforeDisembark := by
  unfold rideFerry
  exact run_append_some run_154_steps leg_ride

theorem run_boardReturning : run initialState boardReturning = some ridingBack := by
  have hsplit : boardReturning = List.replicate 100 (Cmd.step (1 / 20)) ++
      (List.replicate 42 (Cmd.step (1 / 20)) ++ [Cmd.embark, Cmd.step (1 / 20)]) := by
    unfold boardReturning
    rw [← List.append_assoc]
    simp only [List.append_replicate_replicate]
  rw [hsplit]
  exact run_append_some leg_0_100 leg_board_returning

theorem afterSteps100_play : Reachable playCmd afterSteps100 :=
  Reachable.of_run _ Reachable.init (replicate_step_play 100) run_100_steps

theorem afterSteps154_play : Reachable playCmd afterSteps154 :=
  Reachable.of_run _ Reachable.init (replicate_step_play 154) run_154_steps

theorem afterSteps156_play : Reachable playCmd afterSteps156 :=
  Reachable.of_run _ Reachable.init (replicate_step_play 156) run_156_steps

/-- C2: in every state reachable from the initial state by simulation steps
with `0 <= dt <= 0.05`, `tryEmbarkFerry`, `togglePause` and `resetGame` (and
`toggleBusMode`), if `runnerState` is `Swimming` then the active river `i`
exists and `rivers[i].x <= runnerWorldX < rivers[i].x + rivers[i].width`.
Every event returns on a reachable state (`exec_wellFormed`), so no state is
left out of `Reachable` by an exception. -/
theorem runner_in_water (s : State) (h : Reachable clampedCmd s)
    (hsw : s.runnerState = RunnerState.Swimming) : InWater s :=
  ((h.mono clampedCmd_forward).wellFormed).swimming hsw

/-- The state after 156 steps of `0.05`, swimming at `worldX = 1404` in river
0, is reachable, and C2 holds there. -/
theorem runner_in_water_witness :
    Reachable clampedCmd afterSteps156 ∧
    afterSteps156.runnerState = RunnerState.Swimming ∧ InWater afterSteps156 := by
  have hreach : Reachable clampedCmd afterSteps156 := afterSteps156_play.mono playCmd_clamped
  exact ⟨hreach, rfl, runner_in_water afterSteps156 hreach rfl⟩

/-! ## Disembarking -/

theorem moveRunner_onFerry {s : State} {dt : ℚ} {i : Nat} {r : River} {f : Ferry}
    (hst : s.runnerState = RunnerState.OnFerry) (hidx : s.activeRiverIndex = (i : Int))
    (hr : s.rivers[i]? = some r) (hf : s.ferries[i]? = some f) :
    moveRunner s dt = some (if f.pos ≥ r.width - 1 then
      { s with runnerWorldX := r.x + f.pos, runnerState := RunnerState.Running,
               activeRiverIndex := -1 }
      else { s with runnerWorldX := r.x + f.pos }) := by
  unfold moveRunner
  simp only [hst, hidx, index_natCast, hr, hf]
  split <;> rfl

/-- A step that is not paused returns as soon as its ferry loop and its runner
update do and there is a river; the runner is then as the runner update left
it, and the lists keep what they held. -/
theorem tick_of_parts {s s2 : State} {dt : ℚ} {fs : List Ferry} (hp : s.isPaused = false)
    (hfs : moveFerries s.ferries s.rivers dt = some fs)
    (hrun : moveRunner { s with ferries := fs } dt = some s2) (hne : s.rivers ≠ []) :
    ∃ s1, tick s dt = some s1 ∧ s1.runnerWorldX = s2.runnerWorldX ∧
      s1.runnerState = s2.runnerState ∧ s1.activeRiverIndex = s2.activeRiverIndex ∧
      ∀ i, i < fs.length → s1.ferries[i]? = fs[i]? ∧ s1.rivers[i]? = s.rivers[i]? := by
  rcases moveRunner_frame hrun with ⟨hr2, -⟩
  have hne2 : s2.rivers ≠ [] := by rw [hr2]; exact hne
  rcases pauseOrExtend_isSome hne2 with ⟨s3, h3⟩
  rcases pauseOrExtend_frame h3 with ⟨hx, hst, hidx, -, -, -⟩
  have htick : tick s dt =
      some (if s3.isPaused then s3 else { s3 with cameraX := s3.runnerWorldX }) := by
    unfold tick
    rw [if_neg (by simp [hp]), hfs, Option.some_bind, hrun, Option.some_bind, h3,
      Option.map_some']
  refine ⟨_, htick, ?_, ?_, ?_, fun i hi => tick_ferries_prefix hp hfs htick i hi⟩
  · split <;> exact hx
  · split <;> exact hst
  · split <;> exact hidx

theorem beforeDisembark_reachable : Reachable clampedCmd beforeDisembark :=
  Reachable.of_run rideFerry Reachable.init rideFerry_clamped run_rideFerry

/-- C4, as stated, fails: `beforeDisembark` is reachable with steps of at
most `0.05`, the runner rides ferry 0 there, and the step with `dt = 0.025`
moves that ferry to `pos = 459 >= 460 - 1`.  The step ends with the runner
running at `worldX = 1400 + 459 = 1859`, not at the far shore
`1400 + 460 = 1860`. -/
theorem disembark_not_at_far_shore :
    Reachable clampedCmd beforeDisembark ∧ beforeDisembark.isPaused = false ∧
    beforeDisembark.runnerState = RunnerState.OnFerry ∧
    beforeDisembark.activeRiverIndex = 0 ∧
    beforeDisembark.rivers[0]? = some ⟨1400, 460⟩ ∧
    tick beforeDisembark (1 / 40) = some afterDisembark ∧
    afterDisembark.ferries[0]? = some ⟨459, 1, 120⟩ ∧ (459 : ℚ) ≥ 460 - 1 ∧
    afterDisembark.runnerState = RunnerState.Running ∧
    afterDisembark.runnerWorldX = 1859 ∧ afterDisembark.runnerWorldX ≠ 1400 + 460 := by
  refine ⟨beforeDisembark_reachable, rfl, rfl, rfl, rfl, by decide!, rfl, by norm_num, rfl,
    rfl, ?_⟩
  norm_num [afterDisembark]

/-- C4 (amended): for every simulation step that is not paused (any `dt`)
from a state with one ferry per river whose runner is `OnFerry` bound to an
existing river `i`, the step returns, and if ferry `i` after the ferry update
has `pos >= rivers[i].width - 1`, the step ends with `runnerState = Running`,
`activeRiverIndex = -1` and `runnerWorldX = rivers[i].x + ferries[i].pos`
for that updated `pos`: at most one unit before the far shore and, with
`width > 0`, not beyond it. -/
theorem disembark (s : State) (dt : ℚ) (i : Nat) (r : River) (hp : s.isPaused = false)
    (hlen : s.ferries.length = s.rivers.length)
    (hst : s.runnerState = RunnerState.OnFerry) (hidx : s.activeRiverIndex = (i : Int))
    (hr : s.rivers[i]? = some r) :
    ∃ s1 f1, tick s dt = some s1 ∧ s1.ferries[i]? = some f1 ∧ s1.rivers[i]? = some r ∧
      (f1.pos ≥ r.width - 1 →
        s1.runnerState = RunnerState.Running ∧ s1.activeRiverIndex = -1 ∧
        s1.runnerWorldX = r.x + f1.pos ∧ r.x + r.width - 1 ≤ s1.runnerWorldX ∧
        (0 < r.width → s1.runnerWorldX ≤ r.x + r.width)) := by
  have hi : i < s.rivers.length := (List.getElem?_eq_some.mp hr).1
  have hif : i < s.ferries.length := by rw [hlen]; exact hi
  have hne : s.rivers ≠ [] := by
    intro hnil
    rw [hnil] at hi
    exact Nat.not_lt_zero _ hi
  rcases moveFerries_some s.ferries s.rivers dt (le_of_eq hlen) with ⟨fs, h1, h2, h3⟩
  have hf1 : fs[i]? = some (moveFerry (s.ferries[i]) r dt) :=
    h3 i _ r (List.getElem?_eq_getElem hif) hr
  have hrun := @moveRunner_onFerry { s with ferries := fs } dt i r _ hst hidx hr hf1
  rcases tick_of_parts hp h1 hrun hne with ⟨s1, htick, hx, hstate, hactive, hpre⟩
  rcases hpre i (by rw [h2]; exact hif) with ⟨hfi, hri⟩
  refine ⟨s1, moveFerry (s.ferries[i]) r dt, htick, by rw [hfi, hf1], by rw [hri, hr], ?_⟩
  intro hfar
  rw [if_pos hfar] at hx hstate hactive
  have hx1 : s1.runnerWorldX = r.x + (moveFerry (s.ferries[i]) r dt).pos := hx
  refine ⟨hstate, hactive, hx1, ?_, ?_⟩
  · rw [hx1]; linarith
  · intro hw
    rw [hx1]
    have := (moveFerry_moved (s.ferries[i]) r dt hw).2.1
    linarith

/-- The hypotheses of C4 (amended) hold at `beforeDisembark` with river 0. -/
theorem disembark_witness :
    beforeDisembark.isPaused = false ∧
    beforeDisembark.ferries.length = beforeDisembark.rivers.length ∧
    beforeDisembark.runnerState = RunnerState.OnFerry ∧
    beforeDisembark.activeRiverIndex = ((0 : Nat) : Int) ∧
    beforeDisembark.rivers[0]? = some ⟨1400, 460⟩ ∧
    ∃ s1 f1, tick beforeDisembark (1 / 40) = some s1 ∧ s1.ferries[0]? = some f1 ∧
      s1.rivers[0]? = some ⟨1400, 460⟩ ∧
      (f1.pos ≥ (460 : ℚ) - 1 →
        s1.runnerState = RunnerState.Running ∧ s1.activeRiverIndex = -1 ∧
        s1.runnerWorldX = 1400 + f1.pos ∧ (1400 : ℚ) + 460 - 1 ≤ s1.runnerWorldX ∧
        (0 < (460 : ℚ) → s1.runnerWorldX ≤ 1400 + 460)) :=
  ⟨rfl, rfl, rfl, rfl, rfl, disembark beforeDisembark (1 / 40) 0 ⟨1400, 460⟩ rfl rfl rfl rfl rfl⟩

/-! ## Pausing after the fourth river, and the world extension -/

theorem pauseOrExtend_four {s : State} {last : River} (hlen : s.rivers.length = 4)
    (hlast : s.rivers[3]? = some last) :
    pauseOrExtend s = some (if s.runnerWorldX > last.x + last.width + 200 then
      { s with isPaused := true } else s) := by
  have hidx : index s.rivers 3 = some last := by
    rw [← hlast]; exact index_natCast s.rivers 3
  unfold pauseOrExtend
  rw [if_pos hlen, hidx]
  dsimp only
  split <;> rfl

theorem pauseOrExtend_other {s : State} {last : River} (hlen : s.rivers.length ≠ 4)
    (hlast : s.rivers.getLast? = some last) :
    pauseOrExtend s = some (if s.runnerWorldX > last.x + last.width + 500 then
      { s with
        rivers := s.rivers ++ [⟨last.x + last.width + 800,
          500 + ((s.rivers.length % 3 : Nat) : ℚ) * 80⟩]
        ferries := s.ferries ++ [⟨50, 1, 120 + (s.rivers.length : ℚ) * 10⟩] }
      else s) := by
  unfold pauseOrExtend
  rw [if_neg hlen, hlast]
  dsimp only
  split
  · unfold generateNewRivers
    rw [hlast]
    simp
  · rfl

/-- The ferry loop keeps the number of ferries. -/
theorem moveFerries_length {fs fs1 : List Ferry} {rs : List River} {dt : ℚ}
    (h : moveFerries fs rs dt = some fs1) : fs1.length = fs.length := by
  rcases moveFerries_some fs rs dt (moveFerries_eq_some_length h) with ⟨fs2, e1, e2, -⟩
  rw [h] at e1
  cases e1
  exact e2

/-- What a step that is not paused does to the lists and to the pause flag:
with four rivers nothing is appended and the flag is set exactly beyond the
fourth river plus 200; with another count a river and a ferry are appended
exactly beyond the last river plus 500. -/
theorem tick_lists {s s1 : State} {dt : ℚ} (hp : s.isPaused = false)
    (h : tick s dt = some s1) :
    (s.rivers.length = 4 → s1.rivers = s.rivers ∧ s1.ferries.length = s.ferries.length ∧
      ∀ last, s.rivers[3]? = some last →
        (s1.isPaused = true ↔ s1.runnerWorldX > last.x + last.width + 200)) ∧
    (s.rivers.length ≠ 4 → s1.isPaused = false ∧ ∀ last, s.rivers.getLast? = some last →
      (s1.runnerWorldX > last.x + last.width + 500 →
        s1.rivers = s.rivers ++ [⟨last.x + last.width + 800,
          500 + ((s.rivers.length % 3 : Nat) : ℚ) * 80⟩] ∧
        s1.ferries.length = s.ferries.length + 1 ∧
        s1.ferries.getLast? = some ⟨50, 1, 120 + (s.rivers.length : ℚ) * 10⟩) ∧
      (¬ s1.runnerWorldX > last.x + last.width + 500 →
        s1.rivers = s.rivers ∧ s1.ferries.length = s.ferries.length)) := by
  rcases tick_eq_some hp h with ⟨fs, s2, s3, h1, h2, h3, hs1⟩
  have hr2 : s2.rivers = s.rivers := (moveRunner_frame h2).1
  have hf2 : s2.ferries = fs := (moveRunner_frame h2).2.1
  have hp2 : s2.isPaused = false := by
    rw [(moveRunner_frame h2).2.2.1]; exact hp
  have hfl : s2.ferries.length = s.ferries.length := by
    rw [hf2]; exact moveFerries_length h1
  have e1 : s1.rivers = s3.rivers := by rw [hs1]; split <;> rfl
  have e2 : s1.ferries = s3.ferries := by rw [hs1]; split <;> rfl
  have e3 : s1.runnerWorldX = s3.runnerWorldX := by rw [hs1]; split <;> rfl
  have e4 : s1.isPaused = s3.isPaused := by rw [hs1]; split <;> rfl
  have e5 : s3.runnerWorldX = s2.runnerWorldX := (pauseOrExtend_frame h3).1
  rw [e1, e2, e3, e4, e5, ← hr2, ← hfl]
  constructor
  · intro hlen
    have hthree : s2.rivers[3]? = some (s2.rivers[3]) := List.getElem?_eq_getElem (by omega)
    rw [pauseOrExtend_four hlen hthree] at h3
    have h4 := (Option.some.inj h3).symm
    by_cases hfar : s2.runnerWorldX > (s2.rivers[3]).x + (s2.rivers[3]).width + 200
    · rw [if_pos hfar] at h4
      rw [h4]
      refine ⟨rfl, rfl, ?_⟩
      intro last hlast
      rw [hthree] at hlast
      cases hlast
      exact ⟨fun _ => hfar, fun _ => rfl⟩
    · rw [if_neg hfar] at h4
      rw [h4]
      refine ⟨rfl, rfl, ?_⟩
      intro last hlast
      rw [hthree] at hlast
      cases hlast
      exact ⟨fun e => (by rw [hp2] at e; cases e), fun e => absurd e hfar⟩
  · intro hlen
    have key : ∀ last, s2.rivers.getLast? = some last →
        s3 = (if s2.runnerWorldX > last.x + last.width + 500 then
          { s2 with
            rivers := s2.rivers ++ [⟨last.x + last.width + 800,
              500 + ((s2.rivers.length % 3 : Nat) : ℚ) * 80⟩]
            ferries := s2.ferries ++ [⟨50, 1, 120 + (s2.rivers.length : ℚ) * 10⟩] }
          else s2) := by
      intro last hlast
      rw [pauseOrExtend_other hlen hlast] at h3
      exact (Option.some.inj h3).symm
    have hne : s2.rivers ≠ [] := by
      intro hnil
      simp [pauseOrExtend, hnil] at h3
    constructor
    · rw [key _ (List.getLast?_eq_getLast _ hne)]
      split
      · exact hp2
      · exact hp2
    · intro last hlast
      rw [key last hlast]
      by_cases hfar : s2.runnerWorldX > last.x + last.width + 500
      · rw [if_pos hfar]
        exact ⟨fun _ => ⟨rfl, by simp, by simp⟩, fun e => absurd hfar e⟩
      · rw [if_neg hfar]
        exact ⟨fun e => absurd e hfar, fun _ => ⟨rfl, rfl⟩⟩

theorem tick_nearExtension : tick nearExtension (1 / 20) = some pausedBeyondFourth := by
  decide!

/-- Steps leave a paused state as it is, however many. -/
theorem run_steps_paused {s : State} (hp : s.isPaused = true) (dts : List ℚ) :
    run s (dts.map Cmd.step) = some s := by
  induction dts with
  | nil => rfl
  | cons dt dts ih =>
    simp only [List.map_cons, run, exec, tick_paused hp dt, Option.some_bind]
    exact ih

/-- C6: with `rivers.length = 4`, a simulation step that is not paused and
after which `runnerWorldX > rivers[3].x + rivers[3].width + 200` sets
`isPaused`, and every later simulation step, for any `dt`, returns the state
as it is, so `runnerWorldX`, `runnerState`, `activeRiverIndex`, the rivers and
every ferry stay unchanged. -/
theorem termination (s s1 : State) (dt : ℚ) (last : River) (hp : s.isPaused = false)
    (hlen : s.rivers.length = 4) (h : tick s dt = some s1)
    (hlast : s1.rivers[3]? = some last)
    (hfar : s1.runnerWorldX > last.x + last.width + 200) :
    s1.isPaused = true ∧ (∀ dt1, tick s1 dt1 = some s1) ∧
      ∀ dts : List ℚ, run s1 (dts.map Cmd.step) = some s1 := by
  rcases (tick_lists hp h).1 hlen with ⟨hr, -, hpause⟩
  have hp1 : s1.isPaused = true := (hpause last (by rw [← hr]; exact hlast)).mpr hfar
  exact ⟨hp1, fun dt1 => tick_paused hp1 dt1, fun dts => run_steps_paused hp1 dts⟩

/-- C6 at the default world with the runner at `7719`: the step with
`dt = 0.05` ends at `7728 > 6500 + 720 + 200` and pauses the game. -/
theorem termination_witness :
    nearExtension.isPaused = false ∧ nearExtension.rivers.length = 4 ∧
    tick nearExtension (1 / 20) = some pausedBeyondFourth ∧
    pausedBeyondFourth.rivers[3]? = some ⟨6500, 720⟩ ∧
    pausedBeyondFourth.runnerWorldX > (6500 : ℚ) + 720 + 200 ∧
    pausedBeyondFourth.isPaused = true ∧
    (∀ dt1, tick pausedBeyondFourth dt1 = some pausedBeyondFourth) ∧
    ∀ dts : List ℚ, run pausedBeyondFourth (dts.map Cmd.step) = some pausedBeyondFourth := by
  have h1 : tick nearExtension (1 / 20) = some pausedBeyondFourth := tick_nearExtension
  have hfar : pausedBeyondFourth.runnerWorldX > (6500 : ℚ) + 720 + 200 := by
    norm_num [pausedBeyondFourth]
  exact ⟨rfl, rfl, h1, rfl, hfar,
    termination nearExtension pausedBeyondFourth (1 / 20) ⟨6500, 720⟩ rfl rfl h1 rfl hfar⟩

/-! ## The grace zone of `tryEmbarkFerry` -/

/-- The `alreadyInWater` test of `tryEmbarkFerry` never decides anything: the
call never boards the ferry of a river that the runner has reached or
passed. -/
theorem tryEmbarkFerry_never_in_water (s : State) (i : Nat) (r : River)
    (hr : s.rivers[i]? = some r) (hin : r.x ≤ s.runnerWorldX) : ¬ Embarks s i := by
  rintro ⟨s1, h1, h2, -, h4⟩
  rcases tryEmbarkFerry_cases s with hsame | ⟨k, r1, -, hr1, hahead, -, hres⟩
  · rw [hsame] at h1
    cases h1
    exact h2 rfl
  · rcases hres with ⟨-, hnone⟩ | ⟨f, -, -, hcall⟩
    · rw [hnone] at h1; cases h1
    · rw [hcall] at h1
      cases h1
      have hki : (k : Int) = (i : Int) := h4
      have hk : k = i := by exact_mod_cast hki
      subst hk
      rw [hr] at hr1
      cases hr1
      exact absurd hahead.1 (not_lt.mpr hin)

/-- Outside play: with the variables set so that the runner runs at
`worldX = 1405`, within the first 12 units of river 0 (`1400 <= 1405 < 1412`,
a state that `Reachable.dryRunner` excludes), and ferry 0 docked at
`pos = 0 <= 72`, `tryEmbarkFerry` returns the state as it is: the runner does
not board. -/
theorem grace_zone_is_ignored :
    (runnerAt 1405).runnerState = RunnerState.Running ∧
    (runnerAt 1405).rivers[0]? = some ⟨1400, 460⟩ ∧
    (1400 : ℚ) ≤ (runnerAt 1405).runnerWorldX ∧ (runnerAt 1405).runnerWorldX < 1400 + 12 ∧
    (runnerAt 1405).ferries[0]? = some ⟨0, 1, 120⟩ ∧ (0 : ℚ) ≤ 72 ∧
    tryEmbarkFerry (runnerAt 1405) = some (runnerAt 1405) ∧ ¬ Embarks (runnerAt 1405) 0 := by
  have hx : (runnerAt 1405).runnerWorldX = 1405 := rfl
  refine ⟨rfl, rfl, by rw [hx]; norm_num, by rw [hx]; norm_num, ?_, by norm_num, by decide!, ?_⟩
  · norm_num [runnerAt, initialState, defaultFerries, defaultRivers, ferriesFrom]
  · exact tryEmbarkFerry_never_in_water (runnerAt 1405) 0 ⟨1400, 460⟩ rfl
      (by rw [hx]; norm_num)

/-! ## The world generator -/

/-- C8: `generateNewRivers`, called on a river list of length `n` with a last
river and an index-aligned ferry list, returns, appends exactly one river and
exactly one ferry and changes nothing else: the new river has
`x = last.x + last.width + 800` and `width = 500 + (n mod 3) * 80` (one of
500, 580, 660, so strictly positive), the new ferry has `pos = 50`, `dir = +1`
and `speed = 120 + 10 * n`, and the lists are index-aligned again. -/
theorem generateNewRivers_appends (s : State) (last : River)
    (hlast : s.rivers.getLast? = some last) (hal : s.ferries.length = s.rivers.length) :
    ∃ (s1 : State) (w : ℚ), w = 500 + ((s.rivers.length % 3 : Nat) : ℚ) * 80 ∧
      generateNewRivers s = some s1 ∧
      s1 = { s with
        rivers := s.rivers ++ [⟨last.x + last.width + 800, w⟩]
        ferries := s.ferries ++ [⟨50, 1, 120 + 10 * (s.rivers.length : ℚ)⟩] } ∧
      s1.rivers.length = s.rivers.length + 1 ∧ s1.ferries.length = s.ferries.length + 1 ∧
      s1.ferries.length = s1.rivers.length ∧
      (∀ i, i < s.rivers.length → s1.rivers[i]? = s.rivers[i]?) ∧
      (∀ i, i < s.ferries.length → s1.ferries[i]? = s.ferries[i]?) ∧
      (w = 500 ∨ w = 580 ∨ w = 660) ∧ 0 < w := by
  have hw : (500 : ℚ) + ((s.rivers.length % 3 : Nat) : ℚ) * 80 = 500 ∨
      (500 : ℚ) + ((s.rivers.length % 3 : Nat) : ℚ) * 80 = 580 ∨
      (500 : ℚ) + ((s.rivers.length % 3 : Nat) : ℚ) * 80 = 660 := by
    have h3 : s.rivers.length % 3 < 3 := Nat.mod_lt _ (by norm_num)
    generalize s.rivers.length % 3 = m at h3
    interval_cases m
    · left; norm_num
    · right; left; norm_num
    · right; right; norm_num
  have hcall : generateNewRivers s = some { s with
      rivers := s.rivers ++ [⟨last.x + last.width + 800,
        500 + ((s.rivers.length % 3 : Nat) : ℚ) * 80⟩]
      ferries := s.ferries ++ [⟨50, 1, 120 + 10 * (s.rivers.length : ℚ)⟩] } := by
    unfold generateNewRivers
    rw [hlast]
    simp [mul_comm]
  refine ⟨_, _, rfl, hcall, rfl, by simp, by simp, by simp [hal], ?_, ?_, hw, ?_⟩
  · intro i hi
    exact List.getElem?_append_left hi
  · intro i hi
    exact List.getElem?_append_left hi
  · rcases hw with h | h | h <;> rw [h] <;> norm_num

/-- C8 at the default world: the river appended to the four default rivers is
`{ x: 8020, width: 580 }`. -/
theorem generateNewRivers_appends_witness :
    initialState.rivers.getLast? = some ⟨6500, 720⟩ ∧
    initialState.ferries.length = initialState.rivers.length ∧
    ∃ (s1 : State) (w : ℚ), w = 500 + ((initialState.rivers.length % 3 : Nat) : ℚ) * 80 ∧
      generateNewRivers initialState = some s1 ∧
      s1 = { initialState with
        rivers := initialState.rivers ++ [⟨6500 + 720 + 800, w⟩]
        ferries := initialState.ferries ++
          [⟨50, 1, 120 + 10 * (initialState.rivers.length : ℚ)⟩] } ∧
      s1.rivers.length = initialState.rivers.length + 1 ∧
      s1.ferries.length = initialState.ferries.length + 1 ∧
      s1.ferries.length = s1.rivers.length ∧
      (∀ i, i < initialState.rivers.length → s1.rivers[i]? = initialState.rivers[i]?) ∧
      (∀ i, i < initialState.ferries.length → s1.ferries[i]? = initialState.ferries[i]?) ∧
      (w = 500 ∨ w = 580 ∨ w = 660) ∧ 0 < w :=
  ⟨rfl, rfl, generateNewRivers_appends initialState ⟨6500, 720⟩ rfl rfl⟩

/-! ## The river ordering -/

theorem defaultRivers_gapOrdered : GapOrdered defaultRivers := by
  intro i a b ha hb
  simp only [defaultRivers] at ha hb
  match i, ha, hb with
  | 0, ha, hb =>
    simp only [List.getElem?_cons_zero, List.getElem?_cons_succ, Option.some.injEq] at ha hb
    subst ha; subst hb; norm_num
  | 1, ha, hb =>
    simp only [List.getElem?_cons_zero, List.getElem?_cons_succ, Option.some.injEq] at ha hb
    subst ha; subst hb; norm_num
  | 2, ha, hb =>
    simp only [List.getElem?_cons_zero, List.getElem?_cons_succ, Option.some.injEq] at ha hb
    subst ha; subst hb; norm_num
  | n + 3, ha, hb => simp at hb

/-- Rivers that keep the gap and have positive widths are sorted by `x` and
do not overlap. -/
theorem GapOrdered.sortedApart {rivers : List River} (hgap : GapOrdered rivers)
    (hpos : PositiveWidths rivers) : SortedApart rivers := by
  have key : ∀ (d i : Nat) (a b : River), rivers[i]? = some a → rivers[i + d + 1]? = some b →
      a.x + a.width + 800 ≤ b.x := by
    intro d
    induction d with
    | zero => intro i a b ha hb; exact hgap i a b ha hb
    | succ d ih =>
      intro i a b ha hb
      have hlt : i + d + 1 < rivers.length := by
        have := (List.getElem?_eq_some.mp hb).1
        omega
      have hc : rivers[i + d + 1]? = some (rivers[i + d + 1]) := List.getElem?_eq_getElem hlt
      have h1 := ih i a _ ha hc
      have h2 := hgap (i + d + 1) _ b hc hb
      have h3 := hpos _ (List.getElem?_mem hc)
      linarith
  intro i j a b hij ha hb
  obtain ⟨d, rfl⟩ : ∃ d, j = i + d + 1 := ⟨j - i - 1, by omega⟩
  have h1 := key d i a b ha hb
  have h2 := hpos a (List.getElem?_mem ha)
  exact ⟨by linarith, by linarith⟩

/-- Appending the river of `generateNewRivers` keeps the gap and the positive
widths. -/
theorem generateNewRivers_gapOrdered {s s1 : State} (hgap : GapOrdered s.rivers)
    (hpos : PositiveWidths s.rivers) (h : generateNewRivers s = some s1) :
    GapOrdered s1.rivers ∧ PositiveWidths s1.rivers := by
  rcases generateNewRivers_eq_some h with ⟨last, hlast, rfl⟩
  have hne : s.rivers ≠ [] := by
    intro hnil; rw [hnil] at hlast; cases hlast
  have hlen : 0 < s.rivers.length := List.length_pos.mpr hne
  have hlastIdx : s.rivers[s.rivers.length - 1]? = some last := by
    rw [← hlast, List.getLast?_eq_getElem?]
  constructor
  · intro i a b ha hb
    dsimp only at ha hb
    have hi1 : i + 1 < s.rivers.length + 1 := by
      have := (List.getElem?_eq_some.mp hb).1
      simpa using this
    rcases Nat.lt_or_ge (i + 1) s.rivers.length with hlt | hge
    · rw [List.getElem?_append_left (by omega)] at ha
      rw [List.getElem?_append_left hlt] at hb
      exact hgap i a b ha hb
    · have hi : i = s.rivers.length - 1 := by omega
      have hi2 : i + 1 = s.rivers.length := by omega
      rw [List.getElem?_append_left (by omega), hi, hlastIdx] at ha
      rw [hi2, List.getElem?_append_right (le_refl _)] at hb
      simp only [Nat.sub_self, List.getElem?_cons_zero, Option.some.injEq] at ha hb
      subst ha; subst hb
      exact le_refl _
  · intro r hr
    dsimp only at hr
    rcases List.mem_append.mp hr with hr | hr
    · exact hpos r hr
    · rw [List.mem_singleton] at hr
      subst hr
      show (0 : ℚ) < 500 + ((s.rivers.length % 3 : Nat) : ℚ) * 80
      positivity

/-- With four rivers no event changes the river list. -/
theorem exec_rivers_of_four {s s1 : State} {c : Cmd} (hlen : s.rivers.length = 4)
    (h : exec s c = some s1) : s1.rivers = s.rivers := by
  cases c with
  | step dt =>
    cases hp : s.isPaused with
    | true =>
      have h1 : tick s dt = some s1 := h
      rw [tick_paused hp dt] at h1
      cases h1; rfl
    | false => exact ((tick_lists hp h).1 hlen).1
  | embark =>
    have h1 : tryEmbarkFerry s = some s1 := h
    rcases tryEmbarkFerry_cases s with hsame | ⟨k, r, -, -, -, -, hres⟩
    · rw [hsame] at h1; cases h1; rfl
    · rcases hres with ⟨-, hnone⟩ | ⟨f, -, -, hcall⟩
      · rw [hnone] at h1; cases h1
      · rw [hcall] at h1; cases h1; rfl
  | pause =>
    have h1 : some (togglePause s) = some s1 := h
    cases h1
    unfold togglePause
    dsimp only
    split <;> rfl
  | reset =>
    have h1 : some (resetGame s) = some s1 := h
    cases h1; rfl
  | bus =>
    have h1 : some (toggleBusMode s) = some s1 := h
    cases h1; rfl

/-- The river list of a state reached by whatever events is the list of the
four default rivers: the world generator is never called. -/
theorem Reachable.rivers_default {ok : Cmd → Prop} {s : State} (h : Reachable ok s) :
    s.rivers = defaultRivers := by
  induction h with
  | init => rfl
  | next c _ _ hex ih =>
    rw [exec_rivers_of_four (by rw [ih]; rfl) hex]
    exact ih

theorem defaultRivers_positive : PositiveWidths defaultRivers :=
  defaultRivers_width_pos

/-- C9: the initial river list keeps a gap of at least 800 between
consecutive rivers, `rivers[i+1].x >= rivers[i].x + rivers[i].width + 800`;
`generateNewRivers` preserves that, together with the positive widths, for
any list that has both; and in every state reached from the initial state by
any events the rivers keep the gap, have positive widths, are sorted by `x`
ascending and do not overlap. -/
theorem river_ordering :
    GapOrdered initialState.rivers ∧
    (∀ s s1 : State, GapOrdered s.rivers → PositiveWidths s.rivers →
      generateNewRivers s = some s1 →
      GapOrdered s1.rivers ∧ PositiveWidths s1.rivers ∧ SortedApart s1.rivers) ∧
    (∀ s : State, Reachable (fun _ => True) s →
      GapOrdered s.rivers ∧ PositiveWidths s.rivers ∧ SortedApart s.rivers) := by
  refine ⟨defaultRivers_gapOrdered, ?_, ?_⟩
  · intro s s1 hgap hpos h
    rcases generateNewRivers_gapOrdered hgap hpos h with ⟨h1, h2⟩
    exact ⟨h1, h2, h1.sortedApart h2⟩
  · intro s hs
    rw [hs.rivers_default]
    exact ⟨defaultRivers_gapOrdered, defaultRivers_positive,
      defaultRivers_gapOrdered.sortedApart defaultRivers_positive⟩

/-- C9 at the default world, extended once by `generateNewRivers`, and at the
reachable state `afterSteps156`. -/
theorem river_ordering_witness :
    (GapOrdered initialState.rivers ∧ PositiveWidths initialState.rivers ∧
      generateNewRivers initialState = some
        { initialState with
          rivers := defaultRivers ++ [⟨8020, 580⟩]
          ferries := defaultFerries ++ [⟨50, 1, 160⟩] } ∧
      GapOrdered (defaultRivers ++ [⟨8020, 580⟩]) ∧
      SortedApart (defaultRivers ++ [⟨8020, 580⟩])) ∧
    (Reachable (fun _ => True) afterSteps156 ∧ GapOrdered afterSteps156.rivers ∧
      SortedApart afterSteps156.rivers) := by
  have hgen : generateNewRivers initialState = some
      { initialState with
        rivers := defaultRivers ++ [⟨8020, 580⟩]
        ferries := defaultFerries ++ [⟨50, 1, 160⟩] } := by decide!
  have hreach : Reachable (fun _ => True) afterSteps156 :=
    afterSteps156_play.mono (fun _ _ => trivial)
  have w1 := river_ordering.2.1 initialState _ river_ordering.1 defaultRivers_positive hgen
  have w2 := river_ordering.2.2 afterSteps156 hreach
  exact ⟨⟨river_ordering.1, defaultRivers_positive, hgen, w1.1, w1.2.2⟩,
    ⟨hreach, w2.1, w2.2.2⟩⟩

/-! ## Resetting the game -/

/-- C10: `resetGame`, from every state, yields `runnerState = Running`,
`runnerWorldX = 0`, `activeRiverIndex = -1` and `isPaused = false`, puts every
ferry at `pos = 0` with `dir = +1`, which is where the initial ferries start,
keeps every ferry and its speed, and leaves the river list unchanged. -/
theorem resetGame_spec (s : State) :
    (resetGame s).runnerState = RunnerState.Running ∧ (resetGame s).runnerWorldX = 0 ∧
    (resetGame s).activeRiverIndex = -1 ∧ (resetGame s).isPaused = false ∧
    (resetGame s).ferries.length = s.ferries.length ∧
    (∀ (i : Nat) (f : Ferry), s.ferries[i]? = some f →
      (resetGame s).ferries[i]? = some ⟨0, 1, f.speed⟩) ∧
    (∀ f ∈ (resetGame s).ferries, f.pos = 0 ∧ f.dir = 1) ∧
    (∀ f ∈ initialState.ferries, f.pos = 0 ∧ f.dir = 1) ∧
    (resetGame s).rivers = s.rivers := by
  refine ⟨rfl, rfl, rfl, rfl, by simp [resetGame], ?_, ?_, ?_, rfl⟩
  · intro i f hf
    simp [resetGame, hf]
  · intro f hf
    simp only [resetGame, List.mem_map] at hf
    rcases hf with ⟨f0, -, rfl⟩
    exact ⟨rfl, rfl⟩
  · intro f hf
    simp only [initialState, defaultFerries, defaultRivers, ferriesFrom, List.mem_cons,
      List.mem_singleton, List.not_mem_nil, or_false] at hf
    rcases hf with rfl | rfl | rfl | rfl <;> exact ⟨rfl, rfl⟩

/-! ## The movement of the runner -/

theorem ridingBack_reachable : Reachable playCmd ridingBack :=
  Reachable.of_run boardReturning Reachable.init boardReturning_play run_boardReturning

/-- C11, as stated, fails while the runner rides a ferry that heads back:
`ridingBack` is reached by steps of `0.05` and one call of `tryEmbarkFerry`,
the runner is `OnFerry` at `worldX = 1464`, and the step with `dt = 0.05`
ends at `worldX = 1458`. -/
theorem worldX_decreases_on_returning_ferry :
    Reachable playCmd ridingBack ∧ ridingBack.runnerState = RunnerState.OnFerry ∧
    (0 : ℚ) ≤ 1 / 20 ∧ tick ridingBack (1 / 20) = some ridingBackNext ∧
    ridingBack.runnerWorldX = 1464 ∧ ridingBackNext.runnerWorldX = 1458 ∧
    ridingBackNext.runnerWorldX < ridingBack.runnerWorldX := by
  refine ⟨ridingBack_reachable, rfl, by norm_num, by decide!, rfl, rfl, ?_⟩
  norm_num [ridingBack, ridingBackNext]

/-- A ferry that heads for the far shore does not move back. -/
theorem moveFerry_forward (f : Ferry) (r : River) (dt : ℚ) (hdir : f.dir = 1)
    (hspeed : 0 ≤ f.speed) (hdt : 0 ≤ dt) (hhi : f.pos ≤ r.width) :
    f.pos ≤ (moveFerry f r dt).pos := by
  have hraw : f.pos ≤ f.pos + f.dir * f.speed * dt := by
    rw [hdir, one_mul]
    have := mul_nonneg hspeed hdt
    linarith
  unfold moveFerry
  dsimp only
  by_cases h1 : f.pos + f.dir * f.speed * dt ≥ r.width
  · rw [if_pos h1]
    by_cases h2 : r.width ≤ 0
    · rw [if_pos h2]
      show f.pos ≤ 0
      linarith
    · rw [if_neg h2]
      exact hhi
  · rw [if_neg h1]
    by_cases h2 : f.pos + f.dir * f.speed * dt ≤ 0
    · rw [if_pos h2]
      show f.pos ≤ 0
      linarith
    · rw [if_neg h2]
      exact hraw

theorem moveRunner_running {s s2 : State} {dt : ℚ}
    (hst : s.runnerState = RunnerState.Running) (h : moveRunner s dt = some s2) :
    s2.runnerWorldX = s.runnerWorldX + runnerSpeed * dt ∧
      s2.runnerState ≠ RunnerState.OnFerry := by
  unfold moveRunner at h
  simp only [hst] at h
  split at h
  · cases h
    exact ⟨rfl, fun e => (by cases e)⟩
  · cases h
    exact ⟨rfl, fun e => (by cases e)⟩

theorem moveRunner_swimming {s s2 : State} {dt : ℚ}
    (hst : s.runnerState = RunnerState.Swimming) (h : moveRunner s dt = some s2) :
    s2.runnerWorldX = s.runnerWorldX + swimSpeed * dt ∧
      s2.runnerState ≠ RunnerState.OnFerry := by
  unfold moveRunner at h
  simp only [hst] at h
  split at h
  · split at h
    · cases h
      exact ⟨rfl, fun e => (by cases e)⟩
    · cases h
      exact ⟨rfl, fun e => (by cases e)⟩
  · cases h

/-- The runner update of a rider: the active river and its ferry exist, the
runner is put where the ferry is, and a runner still riding is bound to the
same river. -/
theorem moveRunner_onFerry_some {s s2 : State} {dt : ℚ}
    (hst : s.runnerState = RunnerState.OnFerry) (h : moveRunner s dt = some s2) :
    ∃ (i : Nat) (r : River) (f : Ferry), s.activeRiverIndex = (i : Int) ∧
      s.rivers[i]? = some r ∧ s.ferries[i]? = some f ∧ s2.runnerWorldX = r.x + f.pos ∧
      (s2.runnerState = RunnerState.OnFerry → s2.activeRiverIndex = (i : Int)) := by
  cases hr : index s.rivers s.activeRiverIndex with
  | none =>
    unfold moveRunner at h
    simp only [hst, hr] at h
    cases h
  | some r =>
    cases hf : index s.ferries s.activeRiverIndex with
    | none =>
      unfold moveRunner at h
      simp only [hst, hr, hf] at h
      cases h
    | some f =>
      rcases index_eq_some hr with ⟨i, hi, hri⟩
      rcases index_eq_some hf with ⟨j, hj, hfj⟩
      have hij : j = i := by
        have : (j : Int) = (i : Int) := by rw [← hj, ← hi]
        exact_mod_cast this
      subst hij
      rw [moveRunner_onFerry hst hi hri hfj] at h
      have h2 := (Option.some.inj h).symm
      refine ⟨j, r, f, hi, hri, hfj, ?_, ?_⟩
      · rw [h2]; split <;> rfl
      · rw [h2]
        split
        · intro e; cases e
        · intro _; exact hi

/-- With four rivers the ferries after a step that is not paused are exactly
the ones the ferry loop produced. -/
theorem tick_ferries_of_four {s s1 : State} {dt : ℚ} {fs : List Ferry}
    (hp : s.isPaused = false) (hlen : s.rivers.length = 4)
    (hfs : moveFerries s.ferries s.rivers dt = some fs) (h : tick s dt = some s1) :
    s1.ferries = fs := by
  have hl1 : s1.ferries.length = s.ferries.length := ((tick_lists hp h).1 hlen).2.1
  have hl2 : fs.length = s.ferries.length := moveFerries_length hfs
  apply List.ext_getElem?
  intro i
  rcases Nat.lt_or_ge i fs.length with hlt | hge
  · have hpre := tick_ferries_prefix hp hfs h i hlt
    exact hpre.1
  · rw [List.getElem?_eq_none_iff.mpr hge, List.getElem?_eq_none_iff.mpr (by omega)]

/-- What a step that is not paused does to the runner, given the ferries `fs`
that the ferry loop produced. -/
theorem tick_runner {s s1 : State} {dt : ℚ} (hp : s.isPaused = false)
    (h : tick s dt = some s1) :
    ∃ fs s2, moveFerries s.ferries s.rivers dt = some fs ∧
      moveRunner { s with ferries := fs } dt = some s2 ∧
      s1.runnerWorldX = s2.runnerWorldX ∧ s1.runnerState = s2.runnerState ∧
      s1.activeRiverIndex = s2.activeRiverIndex := by
  rcases tick_eq_some hp h with ⟨fs, s2, s3, h1, h2, h3, hs1⟩
  rcases pauseOrExtend_frame h3 with ⟨hx, hst, hidx, -, -, -⟩
  refine ⟨fs, s2, h1, h2, ?_, ?_, ?_⟩
  · rw [hs1, ← hx]; split <;> rfl
  · rw [hs1, ← hst]; split <;> rfl
  · rw [hs1, ← hidx]; split <;> rfl

theorem initialState_rideInv : RideInv initialState where
  rivers := rfl
  inRange := defaultFerries_inRange
  speeds := by
    intro f hf
    simp only [initialState, defaultFerries, defaultRivers, ferriesFrom, List.mem_cons,
      List.mem_singleton, List.not_mem_nil, or_false] at hf
    rcases hf with rfl | rfl | rfl | rfl <;> norm_num
  notAhead := fun e => by cases e

theorem tick_rideInv {s s1 : State} {dt : ℚ} (hinv : RideInv s) (h : tick s dt = some s1) :
    RideInv s1 := by
  cases hp : s.isPaused with
  | true =>
    rw [tick_paused hp dt] at h
    cases h
    exact hinv
  | false =>
    have hlen : s.rivers.length = 4 := by rw [hinv.rivers]; rfl
    have hw : ∀ r ∈ s.rivers, 0 < r.width := by
      rw [hinv.rivers]; exact defaultRivers_positive
    have hr1 : s1.rivers = s.rivers := ((tick_lists hp h).1 hlen).1
    rcases tick_runner hp h with ⟨fs, s2, hfs, hrun, hx, hst, hidx⟩
    have hf1 : s1.ferries = fs := tick_ferries_of_four hp hlen hfs h
    rcases moveFerries_some s.ferries s.rivers dt (moveFerries_eq_some_length hfs)
      with ⟨fs0, e1, -, hmove⟩
    rw [hfs] at e1
    cases e1
    have hmoved : ∀ (i : Nat) (f1 : Ferry), fs[i]? = some f1 →
        ∃ (f : Ferry) (r : River), s.ferries[i]? = some f ∧ s.rivers[i]? = some r ∧
          FerryMoved r f f1 ∧ (f.dir = -1 ∨ f.dir = 1) := by
      intro i f1 hf
      have hi : i < s.ferries.length := by
        rw [← moveFerries_length hfs]; exact (List.getElem?_eq_some.mp hf).1
      rcases hinv.inRange i _ (List.getElem?_eq_getElem hi) with ⟨r, hr, -, -, hdir⟩
      rw [hmove i _ r (List.getElem?_eq_getElem hi) hr] at hf
      cases hf
      exact ⟨_, r, List.getElem?_eq_getElem hi, hr,
        moveFerry_moved _ r dt (hw r (List.getElem?_mem hr)), hdir⟩
    refine ⟨by rw [hr1]; exact hinv.rivers, ?_, ?_, ?_⟩
    · rw [hr1, hf1]
      intro i f1 hf
      rcases hmoved i f1 hf with ⟨f, r, -, hr, ⟨m1, m2, m3, m4, m5, -⟩, hdir⟩
      refine ⟨r, hr, m1, m2, ?_⟩
      rcases lt_or_eq_of_le m1 with hpos | hzero
      · rcases lt_or_eq_of_le m2 with hlt | heq
        · rw [m5 hpos hlt]; exact hdir
        · exact Or.inl (m3 heq)
      · exact Or.inr (m4 hzero.symm)
    · rw [hf1]
      intro f1 hf
      rcases List.mem_iff_getElem?.mp hf with ⟨i, hi⟩
      rcases hmoved i f1 hi with ⟨f, r, hfi, -, hm, -⟩
      rw [hm.2.2.2.2.2]
      exact hinv.speeds f (List.getElem?_mem hfi)
    · intro hon j r1 f1 hj hrj hfj
      rw [hst] at hon
      cases hs : s.runnerState with
      | Running => exact absurd hon (@moveRunner_running { s with ferries := fs } s2 dt hs hrun).2
      | Swimming =>
        exact absurd hon (@moveRunner_swimming { s with ferries := fs } s2 dt hs hrun).2
      | OnFerry =>
        rcases @moveRunner_onFerry_some { s with ferries := fs } s2 dt hs hrun
          with ⟨i, r, f, hi, hri, hfi, hwx, hstay⟩
        have hji : j = i := by
          have : (j : Int) = (i : Int) := by rw [← hj, hidx, hstay hon]
          exact_mod_cast this
        subst hji
        rw [hr1] at hrj
        rw [hf1] at hfj
        have er : r1 = r := by
          have : some r1 = some r := by rw [← hrj]; exact hri
          exact Option.some.inj this
        have ef : f1 = f := by
          have : some f1 = some f := by rw [← hfj]; exact hfi
          exact Option.some.inj this
        rw [hx, hwx, er, ef]

theorem tryEmbarkFerry_rideInv {s s1 : State} (hinv : RideInv s)
    (h : tryEmbarkFerry s = some s1) : RideInv s1 := by
  rcases tryEmbarkFerry_cases s with hsame | ⟨k, r, -, hr, hahead, -, hres⟩
  · rw [hsame] at h
    cases h
    exact hinv
  · rcases hres with ⟨-, hnone⟩ | ⟨f, hf, -, hcall⟩
    · rw [hnone] at h; cases h
    · rw [hcall] at h
      cases h
      refine ⟨hinv.rivers, hinv.inRange, hinv.speeds, ?_⟩
      intro _ j r1 f1 hj hrj hfj
      have hjk : j = k := by
        have : (j : Int) = (k : Int) := hj.symm
        exact_mod_cast this
      subst hjk
      have er : r1 = r := by
        have : some r1 = some r := by rw [← hrj]; exact hr
        exact Option.some.inj this
      have ef : f1 = f := by
        have : some f1 = some f := by rw [← hfj]; exact hf
        exact Option.some.inj this
      rcases hinv.inRange j f hf with ⟨r0, -, hpos, -, -⟩
      have h1 : s.runnerWorldX < r.x := hahead.1
      show s.runnerWorldX ≤ r1.x + f1.pos
      rw [er, ef]
      linarith

theorem Reachable.rideInv {s : State} (h : Reachable playCmd s) : RideInv s := by
  induction h with
  | init => exact initialState_rideInv
  | next c _ hc hex ih =>
    cases c with
    | step dt => exact tick_rideInv ih hex
    | embark => exact tryEmbarkFerry_rideInv ih hex
    | pause => exact absurd hc (by simp [playCmd])
    | reset => exact absurd hc (by simp [playCmd])
    | bus => exact absurd hc (by simp [playCmd])

/-- C11 (amended): for every simulation step with `dt >= 0` (so also with
`0 <= dt <= 0.05`) taken from a state reached from the initial state by steps
with `0 <= dt <= 0.05` and calls of `tryEmbarkFerry`, the step returns and
`runnerWorldX` after it is greater than or equal to `runnerWorldX` before it
when the runner is `Running` or `Swimming`, and when the runner is `OnFerry`
on a ferry whose `dir` is `+1`.  A rider of a ferry with `dir = -1` is carried
back. -/
theorem worldX_monotone (s : State) (dt : ℚ) (hs : Reachable playCmd s) (hdt : 0 ≤ dt)
    (hdir : s.runnerState = RunnerState.OnFerry →
      ∃ (i : Nat) (f : Ferry), s.activeRiverIndex = (i : Int) ∧ s.ferries[i]? = some f ∧
        f.dir = 1) :
    ∃ s1, tick s dt = some s1 ∧ s.runnerWorldX ≤ s1.runnerWorldX := by
  have hwf : WellFormed s := ((hs.mono playCmd_clamped).mono clampedCmd_forward).wellFormed
  have hinv : RideInv s := hs.rideInv
  rcases tick_wellFormed hdt hwf with ⟨s1, h, -⟩
  refine ⟨s1, h, ?_⟩
  cases hp : s.isPaused with
  | true =>
    rw [tick_paused hp dt] at h
    cases h
    exact le_refl _
  | false =>
    rcases tick_runner hp h with ⟨fs, s2, hfs, hrun, hx, -, -⟩
    rw [hx]
    cases hst : s.runnerState with
    | Running =>
      have h1 := (@moveRunner_running { s with ferries := fs } s2 dt hst hrun).1
      have h2 : s2.runnerWorldX = s.runnerWorldX + runnerSpeed * dt := h1
      have h3 : 0 ≤ runnerSpeed * dt := mul_nonneg (by norm_num [runnerSpeed]) hdt
      rw [h2]; linarith
    | Swimming =>
      have h1 := (@moveRunner_swimming { s with ferries := fs } s2 dt hst hrun).1
      have h2 : s2.runnerWorldX = s.runnerWorldX + swimSpeed * dt := h1
      have h3 : 0 ≤ swimSpeed * dt := mul_nonneg (by norm_num [swimSpeed]) hdt
      rw [h2]; linarith
    | OnFerry =>
      rcases @moveRunner_onFerry_some { s with ferries := fs } s2 dt hst hrun
        with ⟨i, r, f1, hi, hri, hfi, hwx, -⟩
      have hi0 : s.activeRiverIndex = (i : Int) := hi
      have hri0 : s.rivers[i]? = some r := hri
      have hfi0 : fs[i]? = some f1 := hfi
      rcases hdir hst with ⟨j, f, hj, hfj, hfdir⟩
      have hji : j = i := by
        have : (j : Int) = (i : Int) := by rw [← hj, hi0]
        exact_mod_cast this
      subst hji
      rcases moveFerries_some s.ferries s.rivers dt (moveFerries_eq_some_length hfs)
        with ⟨fs0, e1, -, hmove⟩
      rw [hfs] at e1
      cases e1
      have hf1 : f1 = moveFerry f r dt := by
        have : some f1 = some (moveFerry f r dt) := by
          rw [← hfi0]; exact hmove j f r hfj hri0
        exact Option.some.inj this
      rcases hinv.inRange j f hfj with ⟨r0, hr0, -, hhi, -⟩
      have er : r0 = r := by
        have : some r0 = some r := by rw [← hr0]; exact hri0
        exact Option.some.inj this
      rw [er] at hhi
      have hfwd := moveFerry_forward f r dt hfdir (hinv.speeds f (List.getElem?_mem hfj)) hdt hhi
      have hbehind := hinv.notAhead hst j r f hi0 hri0 hfj
      rw [hwx, hf1]
      linarith

/-- C11 (amended) at `beforeDisembark`, where the runner rides ferry 0 and
the ferry heads for the far shore. -/
theorem worldX_monotone_witness :
    Reachable playCmd beforeDisembark ∧ (0 : ℚ) ≤ 1 / 40 ∧
    (beforeDisembark.runnerState = RunnerState.OnFerry →
      ∃ (i : Nat) (f : Ferry), beforeDisembark.activeRiverIndex = (i : Int) ∧
        beforeDisembark.ferries[i]? = some f ∧ f.dir = 1) ∧
    ∃ s1, tick beforeDisembark (1 / 40) = some s1 ∧
      beforeDisembark.runnerWorldX ≤ s1.runnerWorldX := by
  have hreach : Reachable playCmd beforeDisembark :=
    Reachable.of_run rideFerry Reachable.init rideFerry_play run_rideFerry
  have hdir : beforeDisembark.runnerState = RunnerState.OnFerry →
      ∃ (i : Nat) (f : Ferry), beforeDisembark.activeRiverIndex = (i : Int) ∧
        beforeDisembark.ferries[i]? = some f ∧ f.dir = 1 :=
    fun _ => ⟨0, ⟨456, 1, 120⟩, rfl, rfl, rfl⟩
  exact ⟨hreach, by norm_num, hdir,
    worldX_monotone beforeDisembark (1 / 40) hreach (by norm_num) hdir⟩

/-! ## The active river index -/

/-- C12: in every state reached from the initial state by simulation steps
with `dt >= 0`, `tryEmbarkFerry`, `togglePause` and `resetGame` (and
`toggleBusMode`), `ferries.length = rivers.length`, `runnerState` is `Running`
exactly when `activeRiverIndex = -1`, and whenever `runnerState` is `Swimming`
or `OnFerry`, `0 <= activeRiverIndex < rivers.length` and both
`rivers[activeRiverIndex]` and `ferries[activeRiverIndex]` exist; the step
(for every `dt >= 0`) and `tryEmbarkFerry` return, so no lookup hits a missing
element. -/
theorem active_index_valid (s : State) (h : Reachable forwardCmd s) :
    s.ferries.length = s.rivers.length ∧
    (s.runnerState = RunnerState.Running ↔ s.activeRiverIndex = -1) ∧
    (s.runnerState = RunnerState.Swimming ∨ s.runnerState = RunnerState.OnFerry →
      0 ≤ s.activeRiverIndex ∧ s.activeRiverIndex < (s.rivers.length : Int) ∧
      ∃ r f, index s.rivers s.activeRiverIndex = some r ∧
        index s.ferries s.activeRiverIndex = some f) ∧
    (∀ dt : ℚ, 0 ≤ dt → ∃ s1, tick s dt = some s1) ∧
    (∃ s1, tryEmbarkFerry s = some s1) := by
  have hwf : WellFormed s := h.wellFormed
  have hbound : s.runnerState = RunnerState.Swimming ∨ s.runnerState = RunnerState.OnFerry →
      BoundToRiver s := by
    rintro (hsw | hon)
    · rcases hwf.swimming hsw with ⟨i, r, h1, h2, -⟩
      exact ⟨i, r, h1, h2⟩
    · exact hwf.onFerry hon
  refine ⟨hwf.aligned, ⟨hwf.running, ?_⟩, ?_, ?_, ?_⟩
  · intro hneg
    cases hst : s.runnerState with
    | Running => rfl
    | Swimming =>
      rcases hbound (Or.inl hst) with ⟨i, -, hi, -⟩
      rw [hi] at hneg
      omega
    | OnFerry =>
      rcases hbound (Or.inr hst) with ⟨i, -, hi, -⟩
      rw [hi] at hneg
      omega
  · intro hst
    rcases hbound hst with ⟨i, r, hi, hr⟩
    have hlt : i < s.rivers.length := (List.getElem?_eq_some.mp hr).1
    have hltf : i < s.ferries.length := by rw [hwf.aligned]; exact hlt
    refine ⟨by rw [hi]; omega, by rw [hi]; exact_mod_cast hlt, r, s.ferries[i], ?_, ?_⟩
    · rw [hi, index_natCast]; exact hr
    · rw [hi, index_natCast]; exact List.getElem?_eq_getElem hltf
  · intro dt hdt
    rcases tick_wellFormed hdt hwf with ⟨s1, h1, -⟩
    exact ⟨s1, h1⟩
  · rcases tryEmbarkFerry_wellFormed hwf with ⟨s1, h1, -⟩
    exact ⟨s1, h1⟩

/-- C12 at `beforeDisembark`, where the runner rides ferry 0. -/
theorem active_index_valid_witness :
    Reachable forwardCmd beforeDisembark ∧
    beforeDisembark.runnerState = RunnerState.OnFerry ∧
    beforeDisembark.activeRiverIndex = 0 ∧
    beforeDisembark.ferries.length = beforeDisembark.rivers.length ∧
    (beforeDisembark.runnerState = RunnerState.Running ↔
      beforeDisembark.activeRiverIndex = -1) ∧
    (∀ dt : ℚ, 0 ≤ dt → ∃ s1, tick beforeDisembark dt = some s1) := by
  have hreach : Reachable forwardCmd beforeDisembark :=
    beforeDisembark_reachable.mono clampedCmd_forward
  have w := active_index_valid beforeDisembark hreach
  exact ⟨hreach, rfl, rfl, w.1, w.2.1, w.2.2.2.1⟩

/-! ## Where a running runner can be -/

theorem moveRunner_running_dry {s s2 : State} {dt : ℚ}
    (hst : s.runnerState = RunnerState.Running) (h : moveRunner s dt = some s2)
    (hrun2 : s2.runnerState = RunnerState.Running) :
    ∀ r ∈ s.rivers, ¬ (r.x ≤ s2.runnerWorldX ∧ s2.runnerWorldX < r.x + r.width) := by
  unfold moveRunner at h
  simp only [hst] at h
  split at h
  · cases h
    cases hrun2
  · rename_i hri
    cases h
    have hneg : getRiverIndexAt s.rivers (s.runnerWorldX + runnerSpeed * dt) = -1 :=
      not_not.mp hri
    unfold getRiverIndexAt at hneg
    rw [firstIndexFrom_eq_neg_one] at hneg
    intro r hr
    have := hneg r hr
    simpa using this

theorem moveRunner_swimming_exit {s s2 : State} {dt : ℚ} {r : River}
    (hst : s.runnerState = RunnerState.Swimming)
    (hr : index s.rivers s.activeRiverIndex = some r) (h : moveRunner s dt = some s2)
    (hrun2 : s2.runnerState = RunnerState.Running) :
    s2.runnerWorldX ≥ r.x + r.width := by
  unfold moveRunner at h
  simp only [hst, hr] at h
  split at h
  · rename_i hfar
    cases h
    exact hfar
  · cases h
    cases hrun2

theorem moveRunner_onFerry_exit {s s2 : State} {dt : ℚ} {i : Nat} {r : River} {f : Ferry}
    (hst : s.runnerState = RunnerState.OnFerry) (hidx : s.activeRiverIndex = (i : Int))
    (hr : s.rivers[i]? = some r) (hf : s.ferries[i]? = some f)
    (h : moveRunner s dt = some s2) (hrun2 : s2.runnerState = RunnerState.Running) :
    f.pos ≥ r.width - 1 := by
  rw [moveRunner_onFerry hst hidx hr hf] at h
  by_contra hnot
  rw [if_neg hnot] at h
  cases h
  have : s.runnerState = RunnerState.Running := hrun2
  rw [hst] at this
  cases this

theorem defaultRivers_width_ge : ∀ r ∈ defaultRivers, 12 ≤ r.width := by
  intro r hr
  simp only [defaultRivers, List.mem_cons, List.mem_singleton, List.not_mem_nil,
    or_false] at hr
  rcases hr with rfl | rfl | rfl | rfl <;> norm_num

/-- A point from one unit before the far shore of a default river to less
than seven units beyond it is outside the first 12 units of every default
river. -/
theorem defaultRivers_beyond {r : River} {w : ℚ} (hr : r ∈ defaultRivers)
    (hlo : r.x + r.width - 1 ≤ w) (hhi : w < r.x + r.width + 7) :
    ∀ r1 ∈ defaultRivers, ¬ (r1.x ≤ w ∧ w < r1.x + 12) := by
  intro r1 hr1
  simp only [defaultRivers, List.mem_cons, List.mem_singleton, List.not_mem_nil,
    or_false] at hr hr1
  rintro ⟨h1, h2⟩
  rcases hr with rfl | rfl | rfl | rfl <;> rcases hr1 with rfl | rfl | rfl | rfl <;>
    norm_num at hlo hhi h1 h2 <;> linarith

/-- With the four default rivers, `togglePause` pauses a running game and
resets a paused one. -/
theorem togglePause_default {s : State} (hdef : s.rivers = defaultRivers) :
    togglePause s = if s.isPaused then resetGame { s with isPaused := false }
      else { s with isPaused := true } := by
  have hlen : s.rivers.length = 4 := by rw [hdef]; rfl
  cases hp : s.isPaused <;> simp [togglePause, hp, hlen]

theorem resetGame_dryRunner {s : State} (hdef : s.rivers = defaultRivers) :
    DryRunner (resetGame s) := by
  rintro - ⟨r, hr, h1, -⟩
  have hr0 : r ∈ defaultRivers := by rw [← hdef]; exact hr
  have hx : (0 : ℚ) < r.x := by
    simp only [defaultRivers, List.mem_cons, List.mem_singleton, List.not_mem_nil,
      or_false] at hr0
    rcases hr0 with rfl | rfl | rfl | rfl <;> norm_num
  have h0 : r.x ≤ 0 := h1
  linarith

/-- A step with `0 <= dt <= 0.05` in the default world keeps a running runner
outside the first 12 units of every river: a runner that enters the water
swims, a swimmer leaves the water at most 7 units beyond the far shore, and a
rider is set down at most one unit before it. -/
theorem tick_dryRunner {s s1 : State} {dt : ℚ} (hdef : s.rivers = defaultRivers)
    (hwf : WellFormed s) (hdt1 : dt ≤ 1 / 20) (hdry : DryRunner s)
    (h : tick s dt = some s1) : DryRunner s1 := by
  cases hp : s.isPaused with
  | true =>
    rw [tick_paused hp dt] at h
    cases h
    exact hdry
  | false =>
    have hlen : s.rivers.length = 4 := by rw [hdef]; rfl
    have hr1 : s1.rivers = s.rivers := ((tick_lists hp h).1 hlen).1
    rcases tick_runner hp h with ⟨fs, s2, hfs, hrun, hx, hst, -⟩
    rintro hrun1 ⟨r1, hmem, h1, h2⟩
    rw [hr1, hdef] at hmem
    rw [hx] at h1 h2
    rw [hst] at hrun1
    cases hs : s.runnerState with
    | Running =>
      have hdry2 := @moveRunner_running_dry { s with ferries := fs } s2 dt hs hrun hrun1 r1
        (by rw [← hdef] at hmem; exact hmem)
      have hw := defaultRivers_width_ge r1 hmem
      exact hdry2 ⟨h1, by linarith⟩
    | Swimming =>
      rcases hwf.swimming hs with ⟨i, r, hi, hri, hlo, hhi⟩
      have hidx : index s.rivers s.activeRiverIndex = some r := by
        rw [hi, index_natCast]; exact hri
      have hexit := @moveRunner_swimming_exit { s with ferries := fs } s2 dt r hs hidx hrun hrun1
      have hwx : s2.runnerWorldX = s.runnerWorldX + swimSpeed * dt :=
        (@moveRunner_swimming { s with ferries := fs } s2 dt hs hrun).1
      have hstep : swimSpeed * dt ≤ 7 := by
        have : swimSpeed * dt ≤ 140 * (1 / 20) := by
          unfold swimSpeed
          exact mul_le_mul_of_nonneg_left hdt1 (by norm_num)
        linarith
      have hrmem : r ∈ defaultRivers := by rw [← hdef]; exact List.getElem?_mem hri
      exact defaultRivers_beyond hrmem (by linarith) (by linarith) r1 hmem ⟨h1, h2⟩
    | OnFerry =>
      rcases @moveRunner_onFerry_some { s with ferries := fs } s2 dt hs hrun
        with ⟨i, r, f1, hi, hri, hfi, hwx, -⟩
      have hri0 : s.rivers[i]? = some r := hri
      have hfi0 : fs[i]? = some f1 := hfi
      have hexit := @moveRunner_onFerry_exit { s with ferries := fs } s2 dt i r f1 hs hi hri hfi
        hrun hrun1
      have hrmem : r ∈ defaultRivers := by rw [← hdef]; exact List.getElem?_mem hri0
      have hwpos : 0 < r.width := defaultRivers_positive r hrmem
      rcases moveFerries_some s.ferries s.rivers dt (moveFerries_eq_some_length hfs)
        with ⟨fs0, e1, e2, hmove⟩
      rw [hfs] at e1
      cases e1
      have hif : i < s.ferries.length := by
        rw [← e2]; exact (List.getElem?_eq_some.mp hfi0).1
      have hf1 : f1 = moveFerry (s.ferries[i]) r dt := by
        have : some f1 = some (moveFerry (s.ferries[i]) r dt) := by
          rw [← hfi0]; exact hmove i _ r (List.getElem?_eq_getElem hif) hri0
        exact Option.some.inj this
      have hle : f1.pos ≤ r.width := by
        rw [hf1]; exact (moveFerry_moved (s.ferries[i]) r dt hwpos).2.1
      exact defaultRivers_beyond hrmem (by rw [hwx]; linarith) (by rw [hwx]; linarith)
        r1 hmem ⟨h1, h2⟩

theorem exec_dryRunner {s s1 : State} {c : Cmd} (hdef : s.rivers = defaultRivers)
    (hwf : WellFormed s) (hc : clampedCmd c) (hdry : DryRunner s)
    (h : exec s c = some s1) : DryRunner s1 := by
  cases c with
  | step dt => exact tick_dryRunner hdef hwf hc.2 hdry h
  | embark =>
    have h1 : tryEmbarkFerry s = some s1 := h
    rcases tryEmbarkFerry_cases s with hsame | ⟨k, r, -, -, -, -, hres⟩
    · rw [hsame] at h1; cases h1; exact hdry
    · rcases hres with ⟨-, hnone⟩ | ⟨f, -, -, hcall⟩
      · rw [hnone] at h1; cases h1
      · rw [hcall] at h1
        cases h1
        intro e
        cases e
  | pause =>
    have h1 : some (togglePause s) = some s1 := h
    cases h1
    rw [togglePause_default hdef]
    split
    · exact resetGame_dryRunner hdef
    · exact hdry
  | reset =>
    have h1 : some (resetGame s) = some s1 := h
    cases h1
    exact resetGame_dryRunner hdef
  | bus =>
    have h1 : some (toggleBusMode s) = some s1 := h
    cases h1
    exact hdry

/-- In every state reached with steps of `0 <= dt <= 0.05` and the buttons, a
running runner is outside the first 12 units of every river. -/
theorem Reachable.dryRunner {s : State} (h : Reachable clampedCmd s) : DryRunner s := by
  induction h with
  | init =>
    rintro - ⟨r, hr, h1, -⟩
    have hx : (0 : ℚ) < r.x := by
      simp only [initialState, defaultRivers, List.mem_cons, List.mem_singleton,
        List.not_mem_nil, or_false] at hr
      rcases hr with rfl | rfl | rfl | rfl <;> norm_num
    have h0 : r.x ≤ 0 := h1
    linarith
  | next c hprev hc hex ih =>
    exact exec_dryRunner hprev.rivers_default
      ((hprev.mono clampedCmd_forward).wellFormed) hc ih hex

/-! ## How far the runner gets -/

theorem defaultRivers_far_shore : ∀ r ∈ defaultRivers, r.x + r.width ≤ 7220 := by
  intro r hr
  simp only [defaultRivers, List.mem_cons, List.mem_singleton, List.not_mem_nil,
    or_false] at hr
  rcases hr with rfl | rfl | rfl | rfl <;> norm_num

/-- A step with `0 <= dt <= 0.05` in the default world moves the runner by at
most 9 units, and the game pauses itself as soon as the runner is beyond
`6500 + 720 + 200`. -/
theorem tick_withinFourRivers {s s1 : State} {dt : ℚ} (hdef : s.rivers = defaultRivers)
    (hdt1 : dt ≤ 1 / 20) (hin : WithinFourRivers s) (h : tick s dt = some s1) :
    WithinFourRivers s1 := by
  cases hp : s.isPaused with
  | true =>
    rw [tick_paused hp dt] at h
    cases h
    exact hin
  | false =>
    have hlen : s.rivers.length = 4 := by rw [hdef]; rfl
    have hpause := ((tick_lists hp h).1 hlen).2.2 ⟨6500, 720⟩ (by rw [hdef]; rfl)
    have hwx := hin.2 hp
    rcases tick_runner hp h with ⟨fs, s2, hfs, hrun, hx, -, -⟩
    have hbound : s1.runnerWorldX ≤ 7429 := by
      rw [hx]
      cases hs : s.runnerState with
      | Running =>
        have e : s2.runnerWorldX = s.runnerWorldX + runnerSpeed * dt :=
          (@moveRunner_running { s with ferries := fs } s2 dt hs hrun).1
        have : runnerSpeed * dt ≤ 180 * (1 / 20) := by
          unfold runnerSpeed
          exact mul_le_mul_of_nonneg_left hdt1 (by norm_num)
        rw [e]; linarith
      | Swimming =>
        have e : s2.runnerWorldX = s.runnerWorldX + swimSpeed * dt :=
          (@moveRunner_swimming { s with ferries := fs } s2 dt hs hrun).1
        have : swimSpeed * dt ≤ 140 * (1 / 20) := by
          unfold swimSpeed
          exact mul_le_mul_of_nonneg_left hdt1 (by norm_num)
        rw [e]; linarith
      | OnFerry =>
        rcases @moveRunner_onFerry_some { s with ferries := fs } s2 dt hs hrun
          with ⟨i, r, f1, -, hri, hfi, e, -⟩
        have hri0 : s.rivers[i]? = some r := hri
        have hfi0 : fs[i]? = some f1 := hfi
        have hrmem : r ∈ defaultRivers := by rw [← hdef]; exact List.getElem?_mem hri0
        rcases moveFerries_some s.ferries s.rivers dt (moveFerries_eq_some_length hfs)
          with ⟨fs0, e1, e2, hmove⟩
        rw [hfs] at e1
        cases e1
        have hif : i < s.ferries.length := by
          rw [← e2]; exact (List.getElem?_eq_some.mp hfi0).1
        have hf1 : f1 = moveFerry (s.ferries[i]) r dt := by
          have : some f1 = some (moveFerry (s.ferries[i]) r dt) := by
            rw [← hfi0]; exact hmove i _ r (List.getElem?_eq_getElem hif) hri0
          exact Option.some.inj this
        have hle : f1.pos ≤ r.width := by
          rw [hf1]
          exact (moveFerry_moved (s.ferries[i]) r dt (defaultRivers_positive r hrmem)).2.1
        have := defaultRivers_far_shore r hrmem
        rw [e]; linarith
    refine ⟨hbound, fun hp1 => ?_⟩
    by_contra hcon
    have hfar : s1.runnerWorldX > (6500 : ℚ) + 720 + 200 := by
      have := not_le.mp hcon
      linarith
    have := hpause.mpr hfar
    rw [hp1] at this
    cases this

theorem exec_withinFourRivers {s s1 : State} {c : Cmd} (hdef : s.rivers = defaultRivers)
    (hc : clampedCmd c) (hin : WithinFourRivers s) (h : exec s c = some s1) :
    WithinFourRivers s1 := by
  cases c with
  | step dt => exact tick_withinFourRivers hdef hc.2 hin h
  | embark =>
    have h1 : tryEmbarkFerry s = some s1 := h
    rcases tryEmbarkFerry_cases s with hsame | ⟨k, r, -, -, -, -, hres⟩
    · rw [hsame] at h1; cases h1; exact hin
    · rcases hres with ⟨-, hnone⟩ | ⟨f, -, -, hcall⟩
      · rw [hnone] at h1; cases h1
      · rw [hcall] at h1
        cases h1
        exact hin
  | pause =>
    have h1 : some (togglePause s) = some s1 := h
    cases h1
    rw [togglePause_default hdef]
    split
    · exact ⟨by show (0 : ℚ) ≤ 7429; norm_num, fun _ => by show (0 : ℚ) ≤ 7420; norm_num⟩
    · exact ⟨hin.1, fun e => (by cases e)⟩
  | reset =>
    have h1 : some (resetGame s) = some s1 := h
    cases h1
    exact ⟨by show (0 : ℚ) ≤ 7429; norm_num, fun _ => by show (0 : ℚ) ≤ 7420; norm_num⟩
  | bus =>
    have h1 : some (toggleBusMode s) = some s1 := h
    cases h1
    exact hin

/-- In every state reached with steps of `0 <= dt <= 0.05` and the buttons
the runner is at most at `7429`, and at most at `7420` while the game is not
paused: the runner never gets beyond `6500 + 720 + 500 = 7720`. -/
theorem Reachable.withinFourRivers {s : State} (h : Reachable clampedCmd s) :
    WithinFourRivers s := by
  induction h with
  | init =>
    exact ⟨by show (0 : ℚ) ≤ 7429; norm_num, fun _ => by show (0 : ℚ) ≤ 7420; norm_num⟩
  | next c hprev hc hex ih => exact exec_withinFourRivers hprev.rivers_default hc ih hex

/-! ## Embarking in play -/

/-- C1: in every state of play (reached from the initial state by steps with
`0 <= dt <= 0.05` and the buttons), `tryEmbarkFerry` changes the runner state,
to `OnFerry` with `activeRiverIndex = i`, if and only if `runnerState` is
`Running`, river `i` is the lowest-index river with
`0 <= rivers[i].x - runnerWorldX <= 600`, and `ferries[i].pos <= 72`; in every
other case the call returns the state unchanged.  A running runner is never
exactly at the start of a river there, which is where the strict test
`worldX < r.x` of the code and the window of the claim differ. -/
theorem embark_gating_in_play (s : State) (h : Reachable clampedCmd s) :
    (∀ i, Embarks s i ↔ EmbarkCondition s i) ∧
      ((∀ i, ¬ EmbarkCondition s i) → tryEmbarkFerry s = some s) := by
  have hwf : WellFormed s := (h.mono clampedCmd_forward).wellFormed
  by_cases hrun : s.runnerState = RunnerState.Running
  · exact embark_gating s hwf.aligned (h.dryRunner hrun)
  · have hsame := tryEmbarkFerry_not_running hrun
    refine ⟨fun i => ⟨?_, ?_⟩, fun _ => hsame⟩
    · rintro ⟨s1, h1, h2, -⟩
      rw [hsame] at h1
      cases h1
      exact absurd rfl h2
    · rintro ⟨hr, -⟩
      exact absurd hr hrun

/-- C1 at two states of play: after 154 steps of `0.05` the runner is 14 units
before river 0 with ferry 0 at the near shore, and boards it; after 100 steps
the runner is at `rivers[0].x - 500 = 900` with ferry 0 at `pos = 322`, and the
call changes nothing. -/
theorem embark_gating_in_play_witness :
    Reachable clampedCmd afterSteps154 ∧ Embarks afterSteps154 0 ∧
    Reachable clampedCmd afterSteps100 ∧ afterSteps100.runnerWorldX = 1400 - 500 ∧
    tryEmbarkFerry afterSteps100 = some afterSteps100 := by
  have h154 : Reachable clampedCmd afterSteps154 := afterSteps154_play.mono playCmd_clamped
  have h100 : Reachable clampedCmd afterSteps100 := afterSteps100_play.mono playCmd_clamped
  refine ⟨h154, ?_, h100, by norm_num [afterSteps100], ?_⟩
  · refine ((embark_gating_in_play afterSteps154 h154).1 0).mpr
      ⟨rfl, ⟨⟨1400, 460⟩, rfl, ?_, ?_⟩, ⟨⟨0, 1, 120⟩, rfl, ?_⟩⟩
    · norm_num [InEmbarkWindow, afterSteps154, initialState]
    · intro j r1 hj; omega
    · norm_num
  · refine (embark_gating_in_play afterSteps100 h100).2 ?_
    rintro i ⟨-, ⟨r, hr, hw, hfirst⟩, ⟨f, hf, hdock⟩⟩
    have h0 : InEmbarkWindow ⟨1400, 460⟩ afterSteps100.runnerWorldX := by
      norm_num [InEmbarkWindow, afterSteps100, initialState]
    have hi : i = 0 := by
      rcases Nat.eq_zero_or_pos i with h | h
      · exact h
      · exact absurd h0 (hfirst 0 ⟨1400, 460⟩ h rfl)
    subst hi
    have hf0 : f = ⟨322, -1, 120⟩ := by
      have : afterSteps100.ferries[0]? = some ⟨322, -1, 120⟩ := rfl
      rw [this] at hf
      exact (Option.some.inj hf).symm
    subst hf0
    norm_num at hdock

/-- C7 in play: after 156 steps of `0.05` the runner is 4 units into river 0
(`1400 <= 1404 < 1412`) with ferry 0 docked at `pos = 12 <= 72`, and
`tryEmbarkFerry` changes nothing: the runner swims since the step in which it
entered the water, and the call returns for a swimmer.  In no state of play is
a running runner within the first 12 units of a river, and the call never
boards the ferry of a river the runner has reached, so nobody boards from the
water. -/
theorem grace_zone_in_play :
    Reachable clampedCmd afterSteps156 ∧
    afterSteps156.rivers[0]? = some ⟨1400, 460⟩ ∧
    (1400 : ℚ) ≤ afterSteps156.runnerWorldX ∧ afterSteps156.runnerWorldX < 1400 + 12 ∧
    afterSteps156.ferries[0]? = some ⟨12, 1, 120⟩ ∧ (12 : ℚ) ≤ 72 ∧
    afterSteps156.runnerState = RunnerState.Swimming ∧
    tryEmbarkFerry afterSteps156 = some afterSteps156 ∧
    (∀ s : State, Reachable clampedCmd s → s.runnerState = RunnerState.Running →
      ¬ InGraceZone s) ∧
    (∀ (s : State) (i : Nat) (r : River), s.rivers[i]? = some r → r.x ≤ s.runnerWorldX →
      ¬ Embarks s i) := by
  have hreach : Reachable clampedCmd afterSteps156 := afterSteps156_play.mono playCmd_clamped
  have hx : afterSteps156.runnerWorldX = 1404 := rfl
  refine ⟨hreach, rfl, by rw [hx]; norm_num, by rw [hx]; norm_num, rfl, by norm_num, rfl,
    ?_, fun s hs hrun => hs.dryRunner hrun, tryEmbarkFerry_never_in_water⟩
  exact tryEmbarkFerry_not_running (fun e => (by cases e))

/-! ## The world is never extended -/

/-- C5 on the code: 901 steps of `0.05` from the initial state end with the
game paused at `runnerWorldX = 7429` and the four default rivers; every
further step returns that state as it is, and `togglePause` puts the runner
back to `worldX = 0`.  In every state of play the river list is the four
default rivers and `runnerWorldX <= 7429 < 6500 + 720 + 500`: no step ends
beyond `7720` and no river is ever appended. -/
theorem default_world_pauses_unextended :
    run initialState (List.replicate 901 (Cmd.step (1 / 20))) = some afterSteps901 ∧
    afterSteps901.isPaused = true ∧ afterSteps901.runnerWorldX = 7429 ∧
    afterSteps901.rivers = defaultRivers ∧ afterSteps901.rivers.length = 4 ∧
    afterSteps901.ferries.length = 4 ∧
    (∀ dt : ℚ, tick afterSteps901 dt = some afterSteps901) ∧
    (togglePause afterSteps901).runnerWorldX = 0 ∧
    (∀ s : State, Reachable clampedCmd s →
      s.rivers = defaultRivers ∧ s.runnerWorldX ≤ 7429 ∧
      (7429 : ℚ) < 6500 + 720 + 500) := by
  refine ⟨run_901_steps, rfl, rfl, rfl, rfl, rfl, fun dt => tick_paused rfl dt, ?_,
    fun s hs => ⟨hs.rivers_default, hs.withinFourRivers.1, by norm_num⟩⟩
  rw [togglePause_default rfl]
  rfl

end Wanderung
